import Mathlib

/-!
Verification of the live-audio-analyzer DSP core.

This file gives a shallow embedding, in Lean 4, of the analysis core of
`live_audio_analyzer-v4.py` and `industry_voice_detection.py`:

* floating-point sample and spectrum values are embedded as rationals `ℚ`
  (exact field arithmetic) except where the source applies transcendental
  functions (`sqrt`, `log`, `exp`, FFT twiddle factors), which are embedded
  over `ℝ`/`ℂ`;
* NumPy arrays become `List ℚ` / functions `ℕ → ℤ` / `ℕ → ℝ`;
* `deque(maxlen=n)` becomes a list push that drops from the front;
* Python `int()` (truncation toward zero) is embedded as `pyInt`;
* fallible code paths (Python exceptions) are embedded with `Except`.

Each claim of the specification is settled by one theorem near the end of
the file.
-/

set_option maxRecDepth 8000

namespace AudioAnalyzer

/-- Python `int(q)`: truncation toward zero (not rounding, not flooring
for negative values). -/
def pyInt (q : ℚ) : ℤ := if 0 ≤ q then ⌊q⌋ else -⌊-q⌋

/-- `deque(maxlen=m)` push: append on the right, dropping from the left
once the capacity `m` is exceeded. -/
def pushMax {α : Type} (m : ℕ) (h : List α) (x : α) : List α :=
  (h ++ [x]).drop (h.length + 1 - m)

/-- `np.median` on a list of rationals: sort ascending; middle element for
odd length, mean of the two middle elements for even length (0 on the
empty list, which the source never passes). -/
def medianQ (l : List ℚ) : ℚ :=
  let s := l.insertionSort (· ≤ ·)
  if l.length % 2 = 1 then s.getD (l.length / 2) 0
  else (s.getD (l.length / 2 - 1) 0 + s.getD (l.length / 2) 0) / 2

/-- Median absolute deviation: `np.median(np.abs(a - np.median(a)))`. -/
def madQ (l : List ℚ) : ℚ := medianQ (l.map (fun x => |x - medianQ l|))

/-! ## Voice-activity hangover (industry_voice_detection.py, quick_vad_check)

Lines 212–218: on a raw detection the hangover counter is reset to
`vad_hangover = 12`; otherwise, while positive, it is decremented and the
voice flag stays asserted. -/

/-- One update of the VAD hangover state machine: given the counter and the
raw detection decision, return the reported voice flag and the new
counter. -/
def vadHangover (counter : ℕ) (raw : Bool) : Bool × ℕ :=
  if raw then (true, 12)
  else if 0 < counter then (true, counter - 1)
  else (false, 0)

/-- Iterate `vadHangover` over a sequence of raw decisions, returning the
reported voice flags. -/
def vadRun (counter : ℕ) : List Bool → List Bool
  | [] => []
  | b :: bs =>
    let r := vadHangover counter b
    r.1 :: vadRun r.2 bs

lemma vadRun_all_true (bs : List Bool) : ∀ c : ℕ, bs.length ≤ c → c ≤ 12 →
    ∀ b ∈ vadRun c bs, b = true := by
  induction bs with
  | nil => intro c _ _ b hb; simp [vadRun] at hb
  | cons x xs ih =>
    intro c hlen hc b hb
    have hlen' : xs.length ≤ c - 1 := by simp at hlen; omega
    have hcpos : 0 < c := by simp at hlen; omega
    cases x with
    | true =>
      rw [vadRun, List.mem_cons] at hb
      rcases hb with hb | hb
      · simpa [vadHangover] using hb
      · exact ih 12 (by omega) (by omega) b (by simpa [vadHangover] using hb)
    | false =>
      rw [vadRun, List.mem_cons] at hb
      rcases hb with hb | hb
      · simpa [vadHangover, hcpos] using hb
      · exact ih (c - 1) (by omega) (by omega) b
          (by simpa [vadHangover, hcpos] using hb)

/-! ## Voice-type classification (industry_voice_detection.py, VoiceClassifier) -/

/-- The pitch-range table of `VoiceClassifier.voice_ranges`, in insertion
(= iteration) order. -/
def voiceRanges : List (String × ℚ × ℚ) :=
  [("bass", 75, 165), ("baritone", 96, 192), ("tenor", 123, 246),
   ("alto", 155, 330), ("mezzo-soprano", 185, 370), ("soprano", 220, 440),
   ("child", 300, 600)]

/-- First entry of the pitch table whose inclusive range contains `pitch`
(the `for voice_type, (low, high) in self.voice_ranges.items()` loop). -/
def firstRangeMatch (pitch : ℚ) : Option String :=
  (voiceRanges.find? (fun r => decide (r.2.1 ≤ pitch ∧ pitch ≤ r.2.2))).map (·.1)

/-- `VoiceClassifier.classify_voice_type`: primary classification by the
pitch table (first match wins), secondary classification by the first two
formants, final fallback by pitch bands. -/
def classify_voice_type (pitch : ℚ) (formants : List ℚ) : String :=
  if pitch ≤ 0 then "unknown"
  else
    match firstRangeMatch pitch with
    | some name => name
    | none =>
      let fallback :=
        if 400 < pitch then "child"
        else if 250 < pitch then "soprano"
        else if 180 < pitch then "alto"
        else if 140 < pitch then "tenor"
        else if 110 < pitch then "baritone"
        else "bass"
      if 2 ≤ formants.length then
        let f1 := formants.getD 0 0
        let f2 := formants.getD 1 0
        let gender :=
          if f1 < 600 ∧ f2 < 1800 then "male"
          else if 800 < f1 ∨ 2000 < f2 then "female"
          else "unknown"
        if gender = "male" then
          if pitch < 130 then "bass" else if pitch < 200 then "baritone" else "tenor"
        else if gender = "female" then
          if pitch < 250 then "alto" else if pitch < 350 then "mezzo-soprano" else "soprano"
        else fallback
      else fallback

/-! ## Kick detection (live_audio_analyzer-v4.py, EnhancedKickDetector)

The magnitude spectrum is a `List ℚ`; band bin bounds are computed as in
the source from `int(f * len(magnitude) / nyquist)` with
`nyquist = 24000`. -/

/-- Positive spectral flux of `mag` against `prev` over bins `[s, e)`
(`np.sum(np.maximum(magnitude[s:e] - prev[s:e], 0))`). -/
def bandFlux (mag prev : List ℚ) (s e : ℕ) : ℚ :=
  ∑ i ∈ Finset.Ico s (min e mag.length), max 0 (mag.getD i 0 - prev.getD i 0)

/-- `int(f * L / 24000)` — the FFT bin index of frequency `f` for a
magnitude array of length `L` at a 48 kHz sample rate. -/
def binOf (f L : ℕ) : ℕ := f * L / 24000

/-- `EnhancedKickDetector.calculate_adaptive_threshold`: 0 until the flux
history holds 10 values, then `median + sensitivity * 2.8 * MAD`. -/
def adaptiveThreshold (sensitivity : ℚ) (coeff : ℚ) (hist : List ℚ) : ℚ :=
  if hist.length < 10 then 0
  else medianQ hist + sensitivity * coeff * madQ hist

/-- The reported MIDI-style velocity:
`min(127, int(strength * 127))` — Python `int` truncation, not rounding. -/
def reportVelocity (strength : ℚ) : ℤ := min 127 (pyInt (strength * 127))

structure KickState where
  sensitivity : ℚ
  prevMag : Option (List ℚ)
  subHist : List ℚ
  bodyHist : List ℚ
  clickHist : List ℚ
  lastKickTime : ℚ
  displayStrength : ℚ
  displayVelocity : ℤ
  lastDetectionTime : ℚ
  deriving Repr, DecidableEq

structure KickResult where
  detected : Bool
  strength : ℚ
  velocity : ℤ
  displayStrength : ℚ
  displayVelocity : ℤ
  subFlux : ℚ
  bodyFlux : ℚ
  clickFlux : ℚ
  subThreshold : ℚ
  bodyThreshold : ℚ
  deriving Repr, DecidableEq

/-- Fresh detector state (`EnhancedKickDetector.__init__`). -/
def KickState.init (sensitivity : ℚ) : KickState :=
  ⟨sensitivity, none, [], [], [], 0, 0, 0, 0⟩

/-- `EnhancedKickDetector.detect_kick_onset`.  Note the source's
`calculate_band_flux` sets `prev_magnitude` and returns 0 *without*
appending to the history when `prev_magnitude` is `None`; the body and
click calls of the same first frame then see a previous magnitude equal
to `magnitude` and append a zero flux. -/
def detect_kick_onset (st : KickState) (mag : List ℚ) (t : ℚ) :
    KickResult × KickState :=
  let L := mag.length
  -- sub band: on the first frame the flux call returns 0 and skips the append
  let subFlux := match st.prevMag with
    | none => 0
    | some p => bandFlux mag p (binOf 20 L) (binOf 60 L)
  let subHist' := match st.prevMag with
    | none => st.subHist
    | some _ => pushMax 21 st.subHist subFlux
  -- body and click bands: prev_magnitude is set by the sub call, so the
  -- flux (0 on the first frame) is always appended
  let prev1 := st.prevMag.getD mag
  let bodyFlux := bandFlux mag prev1 (binOf 60 L) (binOf 120 L)
  let bodyHist' := pushMax 21 st.bodyHist bodyFlux
  let clickFlux := bandFlux mag prev1 (binOf 2000 L) (binOf 5000 L)
  let clickHist' := pushMax 21 st.clickHist clickFlux
  let subThr := adaptiveThreshold st.sensitivity (14/5) subHist'
  let bodyThr := adaptiveThreshold st.sensitivity (14/5) bodyHist'
  let clickThr := adaptiveThreshold st.sensitivity (14/5) clickHist'
  let timeSinceLast := t - st.lastKickTime
  let gate := 10 ≤ subHist'.length ∧ 10 ≤ bodyHist'.length ∧ 1/10 < timeSinceLast
  let detected : Bool := decide (gate ∧ subThr < subFlux ∧ bodyThr < bodyFlux)
  let strength :=
    if detected then
      min 1 (subFlux / (subThr + 1/1000000) * (2/5)
           + bodyFlux / (bodyThr + 1/1000000) * (1/2)
           + (if 0 < clickThr then clickFlux / (clickThr + 1/1000000) else 0) * (1/10))
    else 0
  let velocity : ℤ := if detected then reportVelocity strength else 0
  let lastKick' := if detected then t else st.lastKickTime
  let lastDet' := if detected then t else st.lastDetectionTime
  -- value persistence for display
  let dispPair :=
    if detected ∧ 0 < strength then (strength, velocity)
    else
      let held :=
        if 1/5 < t - lastDet' then
          (st.displayStrength * (23/25), pyInt ((st.displayVelocity : ℚ) * (23/25)))
        else (st.displayStrength, st.displayVelocity)
      if held.1 < 1/20 then (0, 0) else held
  (⟨detected, strength, velocity, dispPair.1, dispPair.2,
    subFlux, bodyFlux, clickFlux, subThr, bodyThr⟩,
   ⟨st.sensitivity, some mag, subHist', bodyHist', clickHist',
    lastKick', dispPair.1, dispPair.2, lastDet'⟩)

/-- Run the kick detector over a list of `(time, magnitude)` frames,
returning `(time, detected)` for every frame. -/
def kickRun (st : KickState) : List (ℚ × List ℚ) → List (ℚ × Bool)
  | [] => []
  | (t, mag) :: rest =>
    let r := detect_kick_onset st mag t
    (t, r.1.detected) :: kickRun r.2 rest

/-- The times of the detected kicks of a run. -/
def kickDetTimes (st : KickState) (inputs : List (ℚ × List ℚ)) : List ℚ :=
  ((kickRun st inputs).filter (·.2)).map (·.1)

/-! ## Snare detection (live_audio_analyzer-v4.py, EnhancedSnareDetector) -/

structure SnareState where
  sensitivity : ℚ
  prevMag : Option (List ℚ)
  fundHist : List ℚ
  bodyHist : List ℚ
  snapHist : List ℚ
  rattleHist : List ℚ
  centroidHist : List ℚ
  lastSnareTime : ℚ
  displayStrength : ℚ
  displayVelocity : ℤ
  lastDetectionTime : ℚ
  deriving Repr, DecidableEq

structure SnareResult where
  detected : Bool
  strength : ℚ
  velocity : ℤ
  displayStrength : ℚ
  displayVelocity : ℤ
  fundamentalFlux : ℚ
  bodyFlux : ℚ
  snapFlux : ℚ
  rattleFlux : ℚ
  spectralCentroid : ℚ
  deriving Repr, DecidableEq

/-- Fresh detector state (`EnhancedSnareDetector.__init__`). -/
def SnareState.init (sensitivity : ℚ) : SnareState :=
  ⟨sensitivity, none, [], [], [], [], [], 0, 0, 0, 0⟩

/-- `EnhancedSnareDetector.calculate_spectral_centroid`: centroid of the
magnitude slice covering 150–15000 Hz, against the bin frequencies
`np.fft.rfftfreq(2 * len(magnitude) - 1, 1/48000)[k] = 48000 k / (2L-1)`. -/
def snareCentroid (mag : List ℚ) : ℚ :=
  let L := mag.length
  let lo := binOf 150 L
  let hi := min (binOf 15000 L) L
  let msum := ∑ i ∈ Finset.Ico lo hi, mag.getD i 0
  if 0 < msum then
    (∑ i ∈ Finset.Ico lo hi, (48000 * i / ((2 * L : ℕ) - 1) : ℚ) * mag.getD i 0) / msum
  else 0

/-- `EnhancedSnareDetector.detect_snare_onset`. On the first frame
`calculate_multi_band_flux` stores the magnitude and returns four zero
fluxes, which are still appended to the histories. -/
def detect_snare_onset (st : SnareState) (mag : List ℚ) (t : ℚ) :
    SnareResult × SnareState :=
  let L := mag.length
  let fluxes : ℚ × ℚ × ℚ × ℚ := match st.prevMag with
    | none => (0, 0, 0, 0)
    | some p =>
      (bandFlux mag p (binOf 150 L) (binOf 400 L),
       bandFlux mag p (binOf 400 L) (binOf 1000 L),
       bandFlux mag p (binOf 2000 L) (binOf 8000 L),
       bandFlux mag p (binOf 8000 L) (binOf 15000 L))
  let fundFlux := fluxes.1
  let bodyFlux := fluxes.2.1
  let snapFlux := fluxes.2.2.1
  let rattleFlux := fluxes.2.2.2
  let centroid := snareCentroid mag
  let fundHist' := pushMax 21 st.fundHist fundFlux
  let bodyHist' := pushMax 21 st.bodyHist bodyFlux
  let snapHist' := pushMax 21 st.snapHist snapFlux
  let rattleHist' := pushMax 21 st.rattleHist rattleFlux
  let centroidHist' := pushMax 21 st.centroidHist centroid
  let fundThr := medianQ fundHist' + st.sensitivity * (5/2) * madQ fundHist'
  let bodyThr := medianQ bodyHist' + st.sensitivity * (23/10) * madQ bodyHist'
  let snapThr := medianQ snapHist' + st.sensitivity * 2 * madQ snapHist'
  let centroidInRange := 800 ≤ centroid ∧ centroid ≤ 6000
  let timingOk := 2/25 < t - st.lastSnareTime
  let detected : Bool := decide (10 ≤ fundHist'.length ∧
    fundThr < fundFlux ∧ bodyThr < bodyFlux ∧ snapThr < snapFlux ∧
    timingOk ∧ centroidInRange)
  let strength :=
    if detected then
      min 1 (fundFlux / (fundThr + 1/1000000) * (1/5)
           + bodyFlux / (bodyThr + 1/1000000) * (3/10)
           + snapFlux / (snapThr + 1/1000000) * (1/2))
    else 0
  let velocity : ℤ := if detected then reportVelocity strength else 0
  let lastSnare' := if detected then t else st.lastSnareTime
  let lastDet' := if detected then t else st.lastDetectionTime
  let dispPair :=
    if detected ∧ 0 < strength then (strength, velocity)
    else
      let held :=
        if 3/20 < t - lastDet' then
          (st.displayStrength * (9/10), pyInt ((st.displayVelocity : ℚ) * (9/10)))
        else (st.displayStrength, st.displayVelocity)
      if held.1 < 1/20 then (0, 0) else held
  (⟨detected, strength, velocity, dispPair.1, dispPair.2,
    fundFlux, bodyFlux, snapFlux, rattleFlux, centroid⟩,
   ⟨st.sensitivity, some mag, fundHist', bodyHist', snapHist', rattleHist',
    centroidHist', lastSnare', dispPair.1, dispPair.2, lastDet'⟩)

/-- Run the snare detector over `(time, magnitude)` frames. -/
def snareRun (st : SnareState) : List (ℚ × List ℚ) → List (ℚ × Bool)
  | [] => []
  | (t, mag) :: rest =>
    let r := detect_snare_onset st mag t
    (t, r.1.detected) :: snareRun r.2 rest

/-- The times of the detected snares of a run. -/
def snareDetTimes (st : SnareState) (inputs : List (ℚ × List ℚ)) : List ℚ :=
  ((snareRun st inputs).filter (·.2)).map (·.1)

/-! ### Refractory-gate lemmas -/

lemma kick_detected_iff (st : KickState) (mag : List ℚ) (t : ℚ) :
    (detect_kick_onset st mag t).1.detected = true ↔
      (10 ≤ (detect_kick_onset st mag t).2.subHist.length ∧
       10 ≤ (detect_kick_onset st mag t).2.bodyHist.length ∧
       1/10 < t - st.lastKickTime ∧
       (detect_kick_onset st mag t).1.subThreshold <
         (detect_kick_onset st mag t).1.subFlux ∧
       (detect_kick_onset st mag t).1.bodyThreshold <
         (detect_kick_onset st mag t).1.bodyFlux) := by
  simp only [detect_kick_onset, decide_eq_true_eq]
  tauto

lemma kick_step_lastKick (st : KickState) (mag : List ℚ) (t : ℚ) :
    (detect_kick_onset st mag t).2.lastKickTime =
      if (detect_kick_onset st mag t).1.detected then t else st.lastKickTime := by
  simp only [detect_kick_onset]

lemma kick_detected_gap (st : KickState) (mag : List ℚ) (t : ℚ)
    (h : (detect_kick_onset st mag t).1.detected = true) :
    1/10 < t - st.lastKickTime :=
  ((kick_detected_iff st mag t).mp h).2.2.1

lemma kickDetTimes_cons (st : KickState) (t : ℚ) (mag : List ℚ)
    (rest : List (ℚ × List ℚ)) :
    kickDetTimes st ((t, mag) :: rest) =
      if (detect_kick_onset st mag t).1.detected
      then t :: kickDetTimes (detect_kick_onset st mag t).2 rest
      else kickDetTimes (detect_kick_onset st mag t).2 rest := by
  cases h : (detect_kick_onset st mag t).1.detected <;>
    simp [kickDetTimes, kickRun, h]

lemma kick_spacing_aux (inputs : List (ℚ × List ℚ)) : ∀ st : KickState,
    (∀ t, (kickDetTimes st inputs).head? = some t → 1/10 < t - st.lastKickTime) ∧
    List.Chain' (fun a b => 1/10 ≤ b - a) (kickDetTimes st inputs) := by
  induction inputs with
  | nil => intro st; simp [kickDetTimes, kickRun]
  | cons p rest ih =>
    intro st
    obtain ⟨t, mag⟩ := p
    rcases hd : (detect_kick_onset st mag t).1.detected with _ | _
    · rw [kickDetTimes_cons, if_neg (by simp [hd])]
      have hlast : (detect_kick_onset st mag t).2.lastKickTime = st.lastKickTime := by
        rw [kick_step_lastKick, hd]; simp
      refine ⟨fun u hu => ?_, (ih _).2⟩
      have := (ih (detect_kick_onset st mag t).2).1 u hu
      rwa [hlast] at this
    · rw [kickDetTimes_cons, if_pos (by simp [hd])]
      have hlast : (detect_kick_onset st mag t).2.lastKickTime = t := by
        rw [kick_step_lastKick, hd]; simp
      constructor
      · intro u hu
        simp only [List.head?_cons, Option.some.injEq] at hu
        rw [← hu]
        exact kick_detected_gap st mag t hd
      · rw [List.chain'_cons']
        refine ⟨fun u hu => ?_, (ih _).2⟩
        have := (ih (detect_kick_onset st mag t).2).1 u (Option.mem_def.mp hu)
        rw [hlast] at this
        linarith

lemma snare_step_lastSnare (st : SnareState) (mag : List ℚ) (t : ℚ) :
    (detect_snare_onset st mag t).2.lastSnareTime =
      if (detect_snare_onset st mag t).1.detected then t else st.lastSnareTime := by
  simp only [detect_snare_onset]

lemma snare_detected_gap (st : SnareState) (mag : List ℚ) (t : ℚ)
    (h : (detect_snare_onset st mag t).1.detected = true) :
    2/25 < t - st.lastSnareTime := by
  simp only [detect_snare_onset, decide_eq_true_eq] at h
  tauto

lemma snareDetTimes_cons (st : SnareState) (t : ℚ) (mag : List ℚ)
    (rest : List (ℚ × List ℚ)) :
    snareDetTimes st ((t, mag) :: rest) =
      if (detect_snare_onset st mag t).1.detected
      then t :: snareDetTimes (detect_snare_onset st mag t).2 rest
      else snareDetTimes (detect_snare_onset st mag t).2 rest := by
  cases h : (detect_snare_onset st mag t).1.detected <;>
    simp [snareDetTimes, snareRun, h]

lemma snare_spacing_aux (inputs : List (ℚ × List ℚ)) : ∀ st : SnareState,
    (∀ t, (snareDetTimes st inputs).head? = some t → 2/25 < t - st.lastSnareTime) ∧
    List.Chain' (fun a b => 2/25 ≤ b - a) (snareDetTimes st inputs) := by
  induction inputs with
  | nil => intro st; simp [snareDetTimes, snareRun]
  | cons p rest ih =>
    intro st
    obtain ⟨t, mag⟩ := p
    rcases hd : (detect_snare_onset st mag t).1.detected with _ | _
    · rw [snareDetTimes_cons, if_neg (by simp [hd])]
      have hlast : (detect_snare_onset st mag t).2.lastSnareTime = st.lastSnareTime := by
        rw [snare_step_lastSnare, hd]; simp
      refine ⟨fun u hu => ?_, (ih _).2⟩
      have := (ih (detect_snare_onset st mag t).2).1 u hu
      rwa [hlast] at this
    · rw [snareDetTimes_cons, if_pos (by simp [hd])]
      have hlast : (detect_snare_onset st mag t).2.lastSnareTime = t := by
        rw [snare_step_lastSnare, hd]; simp
      constructor
      · intro u hu
        simp only [List.head?_cons, Option.some.injEq] at hu
        rw [← hu]
        exact snare_detected_gap st mag t hd
      · rw [List.chain'_cons']
        refine ⟨fun u hu => ?_, (ih _).2⟩
        have := (ih (detect_snare_onset st mag t).2).1 u (Option.mem_def.mp hu)
        rw [hlast] at this
        linarith

/-! ## Tempo estimation (live_audio_analyzer-v4.py, GrooveAnalyzer) -/

/-- The `common_bpms` list of `estimate_tempo_from_intervals`. -/
def commonBpms : List ℚ :=
  [60, 70, 80, 90, 100, 110, 120, 130, 140, 150, 160, 170, 180]

/-- `min(common_bpms, key=lambda x: abs(x - bpm))`: Python's `min` returns
the first element attaining the minimal key, so ties keep the earlier
entry. -/
def closestCommonBpm (bpm : ℚ) : ℚ :=
  commonBpms.tail.foldl (fun acc x => if |x - bpm| < |acc - bpm| then x else acc) 60

/-- An interval is kept when it lies in `[0.2, 2.0]` seconds. -/
def validInterval (i : ℚ) : Prop := 1/5 ≤ i ∧ i ≤ 2

instance : DecidablePred validInterval := fun i => by unfold validInterval; infer_instance

/-- `GrooveAnalyzer.estimate_tempo_from_intervals`. -/
def estimate_tempo_from_intervals (intervals : List ℚ) : ℚ :=
  if intervals.length < 3 then 0
  else
    let valid := intervals.filter (fun i => decide (validInterval i))
    if valid.length < 2 then 0
    else
      let bpm := 60 / medianQ valid
      let closest := closestCommonBpm bpm
      if |bpm - closest| < 8 then closest else bpm

/-- Generic first-wins argmin fold: the result is an element of the
candidate list and minimises the key. -/
lemma foldl_argmin (key : ℚ → ℚ) (l : List ℚ) : ∀ a : ℚ,
    (l.foldl (fun acc x => if key x < key acc then x else acc) a = a ∨
     l.foldl (fun acc x => if key x < key acc then x else acc) a ∈ l) ∧
    key (l.foldl (fun acc x => if key x < key acc then x else acc) a) ≤ key a ∧
    ∀ y ∈ l, key (l.foldl (fun acc x => if key x < key acc then x else acc) a) ≤ key y := by
  induction l with
  | nil => intro a; simp
  | cons x xs ih =>
    intro a
    by_cases h : key x < key a
    · simp only [List.foldl_cons, if_pos h]
      rcases ih x with ⟨hmem, hle, hall⟩
      refine ⟨?_, le_trans hle (le_of_lt h), ?_⟩
      · rcases hmem with hm | hm
        · right; rw [hm]; exact List.mem_cons_self x xs
        · right; exact List.mem_cons_of_mem x hm
      · intro y hy
        rcases List.mem_cons.mp hy with hy | hy
        · rw [hy]; exact hle
        · exact hall y hy
    · simp only [List.foldl_cons, if_neg h]
      rcases ih a with ⟨hmem, hle, hall⟩
      refine ⟨?_, hle, ?_⟩
      · rcases hmem with hm | hm
        · left; exact hm
        · right; exact List.mem_cons_of_mem x hm
      · intro y hy
        rcases List.mem_cons.mp hy with hy | hy
        · rw [hy]; exact le_trans hle (not_lt.mp h)
        · exact hall y hy

lemma closestCommonBpm_mem (bpm : ℚ) : closestCommonBpm bpm ∈ commonBpms := by
  have h := foldl_argmin (fun x => |x - bpm|) commonBpms.tail 60
  rcases h.1 with hm | hm
  · rw [closestCommonBpm, hm]; simp [commonBpms]
  · have : closestCommonBpm bpm ∈ commonBpms.tail := hm
    simp only [commonBpms, List.tail] at this ⊢
    simpa using Or.inr this

lemma closestCommonBpm_min (bpm : ℚ) :
    ∀ c ∈ commonBpms, |closestCommonBpm bpm - bpm| ≤ |c - bpm| := by
  intro c hc
  have h := foldl_argmin (fun x => |x - bpm|) commonBpms.tail 60
  have hc2 : c = 60 ∨ c ∈ commonBpms.tail := by
    simp only [commonBpms] at hc
    rcases List.mem_cons.mp hc with hc' | hc'
    · exact Or.inl hc'
    · exact Or.inr (by simpa [commonBpms] using hc')
  rcases hc2 with hc' | hc'
  · rw [hc']; exact h.2.1
  · exact h.2.2 c hc'

/-! ## Spectrum-bar smoothing (live_audio_analyzer-v4.py, process_frame)

The per-frame smoothing loop: the bar bank is normalised so its maximum
is 1, then each bar is moved toward its target with a frequency- and
detection-dependent attack/release coefficient. -/

/-- Attack coefficient of a bar whose lowest frequency is `freqLo`, given
the latest kick/snare/voice/singing flags (the five branches of the
smoothing loop; voice and singing multipliers can push it above 1). -/
def barAttack (freqLo : ℚ) (kick snare voice singing : Bool) : ℚ :=
  if freqLo ≤ 150 then (if kick then 19/20 else 7/10)
  else if freqLo ≤ 500 then (if snare then 9/10 else 3/4)
  else if freqLo ≤ 2000 then (17/20) * (if voice then 6/5 else 1)
  else if freqLo ≤ 5000 then (4/5) * (if voice then 13/10 else 1) * (if singing then 11/10 else 1)
  else 3/4

/-- Release coefficient of a bar whose lowest frequency is `freqLo`. -/
def barRelease (freqLo : ℚ) : ℚ :=
  if freqLo ≤ 150 then 2/25
  else if freqLo ≤ 500 then 3/25
  else if freqLo ≤ 2000 then 3/20
  else if freqLo ≤ 5000 then 9/50
  else 1/4

/-- One bar update: `current + (target - current) * attack` when the
target exceeds the current height, else with the release coefficient. -/
def smoothBar (freqLo : ℚ) (kick snare voice singing : Bool)
    (current target : ℚ) : ℚ :=
  if current < target then
    current + (target - current) * barAttack freqLo kick snare voice singing
  else current + (target - current) * barRelease freqLo

/-- The smoothing loop over all bars (`for i in range(self.bars)`), as a
simultaneous traversal of the per-bar low frequencies, targets and
current heights. -/
def smoothBars (kick snare voice singing : Bool) :
    List ℚ → List ℚ → List ℚ → List ℚ
  | f :: fs, tgt :: tgts, c :: cs =>
    smoothBar f kick snare voice singing c tgt ::
      smoothBars kick snare voice singing fs tgts cs
  | _, _, _ => []

/-- `np.max` with default 0 (the source's array is nonempty). -/
def maxQ (l : List ℚ) : ℚ := l.foldr max 0

/-- Bar-bank normalisation: divide by the maximum when it is positive. -/
def normalizeBars (bands : List ℚ) : List ℚ :=
  if 0 < maxQ bands then bands.map (· / maxQ bands) else bands

/-- One full spectrum-smoothing frame: normalise the band values, then
smooth every bar. -/
def smoothFrame (kick snare voice singing : Bool)
    (freqLos bands heights : List ℚ) : List ℚ :=
  smoothBars kick snare voice singing freqLos (normalizeBars bands) heights

/-! ### Smoothing bounds -/

lemma barAttack_pos (freqLo : ℚ) (kick snare voice singing : Bool) :
    0 < barAttack freqLo kick snare voice singing := by
  unfold barAttack; split_ifs <;> norm_num

lemma barAttack_le (freqLo : ℚ) (kick snare voice singing : Bool) :
    barAttack freqLo kick snare voice singing ≤ 143/125 := by
  unfold barAttack; split_ifs <;> norm_num

lemma barAttack_le_one_of_no_voice (freqLo : ℚ) (kick snare singing : Bool) :
    barAttack freqLo kick snare false singing ≤ 1 := by
  unfold barAttack; split_ifs <;> first | contradiction | norm_num

lemma barRelease_pos (freqLo : ℚ) : 0 < barRelease freqLo := by
  unfold barRelease; split_ifs <;> norm_num

lemma barRelease_le_one (freqLo : ℚ) : barRelease freqLo ≤ 1 := by
  unfold barRelease; split_ifs <;> norm_num

lemma smoothBar_bounds (freqLo : ℚ) (kick snare voice singing : Bool)
    (current target B : ℚ) (hB : 1 ≤ B)
    (ha : barAttack freqLo kick snare voice singing ≤ B)
    (hc0 : 0 ≤ current) (hcB : current ≤ B)
    (ht0 : 0 ≤ target) (ht1 : target ≤ 1) :
    0 ≤ smoothBar freqLo kick snare voice singing current target ∧
    smoothBar freqLo kick snare voice singing current target ≤ B := by
  have hap := barAttack_pos freqLo kick snare voice singing
  have hrp := barRelease_pos freqLo
  have hr1 := barRelease_le_one freqLo
  unfold smoothBar
  split_ifs with h
  · set a := barAttack freqLo kick snare voice singing with ha_def
    constructor
    · nlinarith
    · by_cases h1 : a ≤ 1
      · nlinarith
      · nlinarith [mul_le_mul_of_nonneg_left ht1 (le_of_lt hap)]
  · set r := barRelease freqLo with hr_def
    push_neg at h
    constructor
    · nlinarith
    · nlinarith

lemma mem_le_maxQ (l : List ℚ) : ∀ b ∈ l, b ≤ maxQ l := by
  induction l with
  | nil => simp
  | cons x xs ih =>
    intro b hb
    rcases List.mem_cons.mp hb with hb | hb
    · rw [hb]; exact le_max_left _ _
    · exact le_trans (ih b hb) (le_max_right _ _)

lemma normalizeBars_bounds (bands : List ℚ) (h : ∀ b ∈ bands, 0 ≤ b) :
    ∀ x ∈ normalizeBars bands, 0 ≤ x ∧ x ≤ 1 := by
  intro x hx
  unfold normalizeBars at hx
  split_ifs at hx with hm
  · rcases List.mem_map.mp hx with ⟨b, hb, rfl⟩
    exact ⟨div_nonneg (h b hb) (le_of_lt hm),
           (div_le_one hm).mpr (mem_le_maxQ bands b hb)⟩
  · push_neg at hm
    have h0 : x = 0 := le_antisymm (le_trans (mem_le_maxQ bands x hx) hm) (h x hx)
    simp [h0]

lemma smoothBars_bounds (kick snare voice singing : Bool) (B : ℚ) (hB : 1 ≤ B)
    (hAtt : ∀ f : ℚ, barAttack f kick snare voice singing ≤ B) :
    ∀ (fs tgts cs : List ℚ),
      (∀ t ∈ tgts, 0 ≤ t ∧ t ≤ 1) → (∀ c ∈ cs, 0 ≤ c ∧ c ≤ B) →
      ∀ y ∈ smoothBars kick snare voice singing fs tgts cs, 0 ≤ y ∧ y ≤ B := by
  intro fs
  induction fs with
  | nil => intro tgts cs _ _ y hy; simp [smoothBars] at hy
  | cons f fs ih =>
    intro tgts cs htg hcs y hy
    match tgts, cs with
    | [], _ => simp [smoothBars] at hy
    | _ :: _, [] => simp [smoothBars] at hy
    | tgt :: tgts', c :: cs' =>
      rw [smoothBars, List.mem_cons] at hy
      rcases hy with hy | hy
      · subst hy
        exact smoothBar_bounds f kick snare voice singing c tgt B hB (hAtt f)
          (hcs c (by simp)).1 (hcs c (by simp)).2
          (htg tgt (by simp)).1 (htg tgt (by simp)).2
      · exact ih tgts' cs' (fun t ht => htg t (List.mem_cons_of_mem _ ht))
          (fun c' hc' => hcs c' (List.mem_cons_of_mem _ hc')) y hy

/-- Frame-level smoothing invariant: nonnegative band values and heights
within `[0, B]` stay within `[0, B]`, for any `B ≥ 1` dominating every
attack coefficient. -/
lemma smoothFrame_bounds (kick snare voice singing : Bool) (B : ℚ) (hB : 1 ≤ B)
    (hAtt : ∀ f : ℚ, barAttack f kick snare voice singing ≤ B)
    (freqLos bands heights : List ℚ)
    (hband : ∀ b ∈ bands, 0 ≤ b) (hh : ∀ c ∈ heights, 0 ≤ c ∧ c ≤ B) :
    ∀ y ∈ smoothFrame kick snare voice singing freqLos bands heights,
      0 ≤ y ∧ y ≤ B :=
  smoothBars_bounds kick snare voice singing B hB hAtt freqLos
    (normalizeBars bands) heights (normalizeBars_bounds bands hband) hh

/-! ## Frame windowing ring buffer
(live_audio_analyzer-v4.py, VoiceReactiveLiveAudioAnalyzer.process_audio_chunk)

`ring_buffer` has size `2 * FFT_SIZE = 4096`, `audio_buffer` has size
`FFT_SIZE = 2048`.  Sample values are embedded as integers (the claim is
about which samples end up in the FFT input, not about their arithmetic);
the subsequent Hann windowing and `np.fft.rfft` are a fixed deterministic
function of `audio_buffer`, so the claim is settled at the level of the
extracted sample window. -/

structure RingState where
  ring : ℕ → ℤ
  pos : ℕ
  buf : ℕ → ℤ

/-- Initial state: both buffers zero-filled, write position 0. -/
def RingState.init : RingState := ⟨fun _ => 0, 0, fun _ => 0⟩

/-- `process_audio_chunk` up to (and excluding) the FFT: write the chunk
into the ring at `buffer_pos` (wrapping), advance `buffer_pos` modulo
4096, then extract the latest 2048 samples into `audio_buffer` — except
that the source has no branch for `buffer_pos == 0`, which leaves
`audio_buffer` unchanged. -/
def process_audio_chunk (st : RingState) (chunk : ℕ → ℤ) (chunkLen : ℕ) :
    RingState :=
  let ring' : ℕ → ℤ :=
    if st.pos + chunkLen ≤ 4096 then
      fun k => if st.pos ≤ k ∧ k < st.pos + chunkLen then chunk (k - st.pos) else st.ring k
    else
      let first := 4096 - st.pos
      fun k =>
        if st.pos ≤ k ∧ k < 4096 then chunk (k - st.pos)
        else if k < chunkLen - first then chunk (first + k)
        else st.ring k
  let pos' := (st.pos + chunkLen) % 4096
  let buf' : ℕ → ℤ :=
    if 2048 ≤ pos' then fun i => ring' (pos' - 2048 + i)
    else if 0 < pos' then
      fun i =>
        if i < 2048 - pos' then ring' (4096 - (2048 - pos') + i)
        else ring' (i - (2048 - pos'))
    else st.buf
  ⟨ring', pos', buf'⟩

/-- Feed a list of chunks of 512 samples each. -/
def processChunks (st : RingState) : List (ℕ → ℤ) → RingState
  | [] => st
  | c :: cs => processChunks (process_audio_chunk st c 512) cs

/-- The newest 2048 samples of the ring, in natural order, as a function
of the write position: sample `i` lives at ring index
`(pos + 2048 + i) % 4096` (i.e. `pos - 2048 + i` modulo the ring size). -/
def newestWindow (st : RingState) (i : ℕ) : ℤ :=
  st.ring ((st.pos + 2048 + i) % 4096)

/-- For every write position other than the wrap-around position 0 the
extraction is correct: the audio buffer holds exactly the newest 2048 ring
samples in natural order. -/
lemma process_audio_chunk_extracts (st : RingState) (chunk : ℕ → ℤ)
    (chunkLen : ℕ)
    (hpos : (st.pos + chunkLen) % 4096 ≠ 0) :
    ∀ i < 2048, (process_audio_chunk st chunk chunkLen).buf i =
      newestWindow (process_audio_chunk st chunk chunkLen) i := by
  intro i hi
  unfold process_audio_chunk newestWindow
  simp only
  set p := (st.pos + chunkLen) % 4096 with hp
  have hplt : p < 4096 := Nat.mod_lt _ (by norm_num)
  have hp0 : 0 < p := Nat.pos_of_ne_zero hpos
  by_cases h1 : 2048 ≤ p
  · rw [if_pos h1]
    have hidx : (p + 2048 + i) % 4096 = p - 2048 + i := by omega
    rw [hidx]
  · rw [if_neg h1, if_pos hp0]
    by_cases h2 : i < 2048 - p
    · rw [if_pos h2]
      have hidx : (p + 2048 + i) % 4096 = 4096 - (2048 - p) + i := by omega
      rw [hidx]
    · rw [if_neg h2]
      have hidx : (p + 2048 + i) % 4096 = i - (2048 - p) := by omega
      rw [hidx]

/-! ## YIN pitch detection (industry_voice_detection.py, detect_pitch_yin)

The autocorrelation array (computed by `np.correlate` on the
FFT-preprocessed frame) is taken as the input list; everything after it —
the cumulative-mean normalised difference function, the candidate search
in the two ranges, the consistency check against the pitch history and
the confidence floors — is embedded below. -/

/-- The CMNDF loop of `detect_pitch_yin`, from index `τ` up to `stop`,
with running cumulative sum `cs`.  `a0` is `autocorr[0]`. -/
def diffAux (autocorr : List ℚ) (a0 : ℚ) (stop : ℕ) : ℕ → ℚ → List ℚ
  | τ, cs =>
    if h : stop ≤ τ then []
    else if τ < autocorr.length then
      let dv := 1 - autocorr.getD τ 0 / (a0 + 1/10000000000)
      let cs' := cs + dv
      (if 0 < cs' then dv / (cs' / τ) else dv) :: diffAux autocorr a0 stop (τ + 1) cs'
    else 0 :: diffAux autocorr a0 stop (τ + 1) cs
  termination_by τ _ => stop - τ
  decreasing_by all_goals omega

/-- `diff_function`: entry 0 is 1, entries `1 ≤ τ < frame_size // 2`
come from the CMNDF loop (with the source's running sum). -/
def diffFunction (autocorr : List ℚ) (frameSize : ℕ) : List ℚ :=
  if frameSize / 2 = 0 then []
  else 1 :: diffAux autocorr (autocorr.getD 0 0) (frameSize / 2) 1 0

/-- The candidate-search loop body of `find_pitch_in_range`, scanning the
period indices in order and returning `(f0, confidence, clarity)` at the
first index that satisfies the threshold, boundary and parabola
conditions (Python's `break`). -/
def findPitchScan (diff autocorr : List ℚ) (threshold : ℚ) :
    List ℕ → ℚ × ℚ × ℚ
  | [] => (0, 0, 0)
  | τ :: rest =>
    let y2 := diff.getD τ 0
    if y2 < threshold ∧ 0 < τ ∧ τ + 1 < diff.length then
      let y1 := diff.getD (τ - 1) 0
      let y3 := diff.getD (τ + 1) 0
      let denom := 2 * (2 * y2 - y1 - y3)
      if 1/10000000000 < |denom| then
        let x0 := (τ : ℚ) + (y3 - y1) / denom
        let f0 := 48000 / x0
        let rawConf := max 0 (1 - min 1 y2)
        let clarity :=
          if τ < autocorr.length
          then |autocorr.getD τ 0| / (autocorr.getD 0 0 + 1/10000000000)
          else 0
        let conf1 := max (2/5) rawConf
        let conf2 := if 0 < f0 then max conf1 (1/2) else conf1
        let conf3 :=
          if 3/5 < clarity then conf2 * (7/5)
          else if 2/5 < clarity then conf2 * (6/5)
          else conf2
        let conf4 :=
          if 150 ≤ f0 ∧ f0 ≤ 400 then conf3 * (13/10)
          else if 100 ≤ f0 ∧ f0 ≤ 300 then conf3 * (11/10)
          else conf3
        (f0, conf4, clarity)
      else findPitchScan diff autocorr threshold rest
    else findPitchScan diff autocorr threshold rest

/-- `find_pitch_in_range`: period bounds from the frequency range, scan,
and the final `min(1.0, confidence)`. -/
def find_pitch_in_range (diff autocorr : List ℚ) (fLo fHi : ℕ)
    (threshold : ℚ) : ℚ × ℚ × ℚ :=
  let minPeriod := 48000 / fHi
  let maxPeriod := 48000 / fLo
  let stop := min maxPeriod diff.length
  let r := findPitchScan diff autocorr threshold
    (List.range' minPeriod (stop - minPeriod))
  (r.1, min 1 r.2.1, r.2.2)

/-- The tail of `detect_pitch_yin` after the two range searches:
best-result selection, history-consistency damping against the last three
voiced pitches, and the final confidence floor. -/
def yinPost (fem ext : ℚ × ℚ × ℚ) (history : List ℚ) : ℚ × ℚ × ℚ :=
  let chosen :=
    if ext.2.1 < fem.2.1 ∧ 0 < fem.1 then fem
    else if 0 < ext.1 then ext
    else (0, 0, 0)
  let f0 := chosen.1
  let conf := chosen.2.1
  let conf2 :=
    if 0 < f0 ∧ 3 < history.length then
      let recent := (history.drop (history.length - 3)).filter (fun p => decide (0 < p))
      if recent ≠ [] ∧ 100 < |f0 - medianQ recent| then conf * (1/2) else conf
    else conf
  let conf3 :=
    if 0 < f0 ∧ conf2 < 1/5 then (if 80 ≤ f0 ∧ f0 ≤ 800 then 2/5 else 1/5)
    else conf2
  (f0, conf3, chosen.2.2)

/-- `detect_pitch_yin` downstream of the autocorrelation: two range
searches, best-result selection, history-consistency damping, and the
final confidence floor.  Returns `(frequency, confidence, clarity)` (the
note-name string, a pure display value, is not modelled). -/
def detect_pitch_yin (autocorr : List ℚ) (frameSize : ℕ)
    (history : List ℚ) : ℚ × ℚ × ℚ :=
  let diff := diffFunction autocorr frameSize
  yinPost (find_pitch_in_range diff autocorr 150 500 (1/2))
    (find_pitch_in_range diff autocorr 75 600 (3/5)) history

/-! ## Overall voice confidence
(industry_voice_detection.py, calculate_voice_confidence) -/

/-- The `(factor, weight)` pairs accumulated by
`calculate_voice_confidence`, in source order: pitch confidence, HNR,
formant presence, spectral flatness, voice-band energy ratio, vocal
energy.  Each conditional append of the source becomes a conditional
singleton. -/
def vcFactors (pitchConf pitch hnr : ℚ) (formants : List ℚ)
    (hasSpectral : Bool) (flatness lowE midE highE vocalEnergy : ℚ) :
    List (ℚ × ℚ) :=
  (if 0 < pitch then [(max (1/2) pitchConf, 3)]
   else if 0 < pitchConf then [(pitchConf * (7/10), 2)]
   else [])
  ++ (if 0 < hnr then [(min 1 (hnr / 15), 2)] else [])
  ++ (if 0 < formants.length then [(min 1 ((formants.length : ℚ) / (5/2)), 5/2)]
      else [])
  ++ (if hasSpectral ∧ 1/10 < max 0 (1 - flatness) then [(max 0 (1 - flatness), 3/2)]
      else [])
  ++ (if hasSpectral ∧ 0 < midE + highE + lowE ∧
         3/10 < (midE + highE) / (midE + highE + lowE)
      then [((midE + highE) / (midE + highE + lowE), 1)] else [])
  ++ (if 1/500 < vocalEnergy then [(min 1 (vocalEnergy / (1/100)), 1)] else [])

/-- `calculate_voice_confidence`, with the fields of the `results` dict it
reads passed as arguments: weighted average of the collected factors,
multi-factor boost, pitch/formant floors, clamp to 1; pitch-only fallback
0.5 when no factor was collected. -/
def calculate_voice_confidence (pitchConf pitch hnr : ℚ) (formants : List ℚ)
    (hasSpectral : Bool) (flatness lowE midE highE vocalEnergy : ℚ) : ℚ :=
  let fw := vcFactors pitchConf pitch hnr formants hasSpectral flatness
    lowE midE highE vocalEnergy
  if fw ≠ [] then
    let ws := (fw.map (fun p => p.1 * p.2)).sum
    let tw := (fw.map (fun p => p.2)).sum
    let c1 := ws / tw
    let c2 := if 3 ≤ fw.length then c1 * (6/5) else c1
    let c3 := if 0 < pitch ∧ 2 ≤ formants.length then max c2 (2/5) else c2
    let c4 := if 0 < pitch then max c3 (3/10) else c3
    min 1 c4
  else if 0 < pitch then 1/2
  else 0

/-! ## Harmonic-to-noise ratio (industry_voice_detection.py, calculate_hnr)

The harmonic/noise energy accumulation loop over the first ten harmonics
is abstracted by its two accumulated sums; the final ratio, dB conversion
and clamp are embedded. -/

/-- `calculate_hnr` final computation from `f0` and the accumulated
harmonic and noise energies. -/
noncomputable def calculate_hnr (f0 harmonicE noiseE : ℝ) : ℝ :=
  if f0 ≤ 0 then 0
  else if 0 < noiseE then
    max 0 (min 40 (10 * Real.logb 10 (harmonicE / (noiseE + 1/10000000000) + 1/10000000000)))
  else 0

/-! ## LPC formants (industry_voice_detection.py, analyze_formants_lpc)

The polynomial roots returned by `np.roots` on the LPC coefficients are
taken as input; the frequency conversion, human-range filter, sort and
truncation are embedded. -/

open Classical in
/-- Formant extraction from the LPC polynomial roots: keep roots with
positive imaginary part, convert the angle to Hz, keep frequencies in
(90, 5500), sort ascending, return the first 4. -/
noncomputable def analyze_formants_lpc (roots : List ℂ) : List ℝ :=
  let cands := (roots.filter (fun r => decide (0 < r.im))).map
    (fun r => Complex.arg r * 48000 / (2 * Real.pi))
  let kept := cands.filter (fun f => decide (90 < f ∧ f < 5500))
  (kept.insertionSort (· ≤ ·)).take 4

/-! ## Top-level voice detection entry point
(industry_voice_detection.py, detect_voice_realtime) -/

structure VibratoInfo where
  detected : Bool
  frequency : ℝ
  strength : ℝ
  rate : ℝ

/-- The per-frame voice result dict, as a record (a Lean record is always
fully populated, modelling the fully-initialised `results` dict). -/
structure VoiceResult where
  has_voice : Bool
  voice_confidence : ℝ
  pitch : ℝ
  pitch_note : Option String
  pitch_confidence : ℝ
  formants : List ℝ
  voice_type : String
  hnr : ℝ
  spectral_features : List (String × ℝ)
  is_singing : Bool
  vibrato : Option VibratoInfo
  vocal_energy : ℝ
  fundamental_clarity : ℝ

/-- The freshly initialised `results` dict of `detect_voice_realtime`,
with `vocal_energy` already set to the frame RMS. -/
def initResults (e : ℝ) : VoiceResult :=
  ⟨false, 0, 0, none, 0, [], "unknown", 0, [], false, none, e, 0⟩

/-- The safe default returned by the `except` handler (its
`vocal_energy` is 0.0, not the frame RMS). -/
def safeDefaultResults : VoiceResult := initResults 0

/-- `np.sqrt(np.mean(audio_frame ** 2))` for a frame of `n` samples. -/
noncomputable def rmsEnergy (n : ℕ) (x : ℕ → ℝ) : ℝ :=
  Real.sqrt ((∑ j ∈ Finset.range n, x j ^ 2) / n)

open Classical in
/-- `detect_voice_realtime`: the quick energy guard returns the inactive
result carrying the frame RMS; otherwise the rest of the `try` block (VAD
check plus detailed or cached analysis, abstracted as the fallible
continuation `inner`) runs, and any exception it raises is caught,
returning the safe default. -/
noncomputable def detect_voice_realtime (n : ℕ) (x : ℕ → ℝ)
    (inner : ℝ → Except String VoiceResult) : VoiceResult :=
  let energy := rmsEnergy n x
  if energy < 1/1000 then initResults energy
  else
    match inner energy with
    | .ok r => r
    | .error _ => safeDefaultResults

/-! ### Voice-result bound lemmas -/

lemma findPitchScan_conf_bounds (diff autocorr : List ℚ) (threshold : ℚ) :
    ∀ taus : List ℕ, 0 ≤ (findPitchScan diff autocorr threshold taus).2.1 := by
  intro taus
  induction taus with
  | nil => simp [findPitchScan]
  | cons τ rest ih =>
    rw [findPitchScan]
    simp only
    split_ifs <;> first | exact ih | positivity

lemma find_pitch_in_range_conf_bounds (diff autocorr : List ℚ)
    (fLo fHi : ℕ) (threshold : ℚ) :
    0 ≤ (find_pitch_in_range diff autocorr fLo fHi threshold).2.1 ∧
    (find_pitch_in_range diff autocorr fLo fHi threshold).2.1 ≤ 1 := by
  unfold find_pitch_in_range
  refine ⟨le_min (by norm_num) (findPitchScan_conf_bounds _ _ _ _), min_le_left _ _⟩

lemma yinPost_conf_bounds (fem ext : ℚ × ℚ × ℚ) (history : List ℚ)
    (hf0 : 0 ≤ fem.2.1) (hf1 : fem.2.1 ≤ 1)
    (he0 : 0 ≤ ext.2.1) (he1 : ext.2.1 ≤ 1) :
    0 ≤ (yinPost fem ext history).2.1 ∧ (yinPost fem ext history).2.1 ≤ 1 := by
  obtain ⟨f1, c1, l1⟩ := fem
  obtain ⟨f2, c2, l2⟩ := ext
  simp only at hf0 hf1 he0 he1
  unfold yinPost
  simp only
  split_ifs <;> constructor <;> (try simp) <;> linarith

lemma detect_pitch_yin_conf_bounds (autocorr : List ℚ) (frameSize : ℕ)
    (history : List ℚ) :
    0 ≤ (detect_pitch_yin autocorr frameSize history).2.1 ∧
    (detect_pitch_yin autocorr frameSize history).2.1 ≤ 1 := by
  unfold detect_pitch_yin
  have hf := find_pitch_in_range_conf_bounds (diffFunction autocorr frameSize)
    autocorr 150 500 (1/2)
  have he := find_pitch_in_range_conf_bounds (diffFunction autocorr frameSize)
    autocorr 75 600 (3/5)
  exact yinPost_conf_bounds _ _ history hf.1 hf.2 he.1 he.2

lemma vcFactors_pos (pitchConf pitch hnr : ℚ) (formants : List ℚ)
    (hasSpectral : Bool) (flatness lowE midE highE vocalEnergy : ℚ) :
    ∀ p ∈ vcFactors pitchConf pitch hnr formants hasSpectral flatness
      lowE midE highE vocalEnergy, 0 ≤ p.1 ∧ 0 < p.2 := by
  intro p hp
  unfold vcFactors at hp
  simp only [List.mem_append] at hp
  rcases hp with ((((hp | hp) | hp) | hp) | hp) | hp
  · split_ifs at hp with h1 h2 <;> simp at hp <;> subst hp <;>
      refine ⟨?_, by norm_num⟩
    · exact le_trans (by norm_num) (le_max_left _ _)
    · positivity
  · split_ifs at hp with h1 <;> simp at hp
    subst hp
    have : (0:ℚ) ≤ hnr / 15 := by positivity
    exact ⟨le_min (by norm_num) this, by norm_num⟩
  · split_ifs at hp with h1 <;> simp at hp
    subst hp
    refine ⟨le_min (by norm_num) (by positivity), by norm_num⟩
  · split_ifs at hp with h1 <;> simp at hp
    subst hp
    exact ⟨le_max_left _ _, by norm_num⟩
  · split_ifs at hp with h1 <;> simp at hp
    subst hp
    exact ⟨le_of_lt (lt_trans (by norm_num) h1.2.2), by norm_num⟩
  · split_ifs at hp with h1 <;> simp at hp
    subst hp
    refine ⟨le_min (by norm_num) ?_, by norm_num⟩
    have : (0:ℚ) < vocalEnergy := lt_trans (by norm_num) h1
    positivity

lemma fw_sums (l : List (ℚ × ℚ)) (hl : ∀ p ∈ l, 0 ≤ p.1 ∧ 0 < p.2) :
    0 ≤ (l.map (fun p => p.1 * p.2)).sum ∧ 0 ≤ (l.map (fun p => p.2)).sum ∧
    (l ≠ [] → 0 < (l.map (fun p => p.2)).sum) := by
  induction l with
  | nil => simp
  | cons q rest ih =>
    have hq := hl q (by simp)
    have hrest := ih (fun p hp => hl p (List.mem_cons_of_mem _ hp))
    simp only [List.map_cons, List.sum_cons]
    refine ⟨add_nonneg (mul_nonneg hq.1 (le_of_lt hq.2)) hrest.1,
            add_nonneg (le_of_lt hq.2) hrest.2.1,
            fun _ => add_pos_of_pos_of_nonneg hq.2 hrest.2.1⟩

lemma calculate_voice_confidence_bounds (pitchConf pitch hnr : ℚ)
    (formants : List ℚ) (hasSpectral : Bool)
    (flatness lowE midE highE vocalEnergy : ℚ) :
    0 ≤ calculate_voice_confidence pitchConf pitch hnr formants hasSpectral
      flatness lowE midE highE vocalEnergy ∧
    calculate_voice_confidence pitchConf pitch hnr formants hasSpectral
      flatness lowE midE highE vocalEnergy ≤ 1 := by
  have hfs := vcFactors_pos pitchConf pitch hnr formants hasSpectral flatness
    lowE midE highE vocalEnergy
  by_cases hne : vcFactors pitchConf pitch hnr formants hasSpectral flatness
    lowE midE highE vocalEnergy = []
  · unfold calculate_voice_confidence
    simp only [hne]
    split_ifs <;> norm_num
  · have hs := fw_sums _ hfs
    have htw := hs.2.2 hne
    have hc1 : 0 ≤ (((vcFactors pitchConf pitch hnr formants hasSpectral
        flatness lowE midE highE vocalEnergy).map (fun p => p.1 * p.2)).sum) /
        (((vcFactors pitchConf pitch hnr formants hasSpectral
        flatness lowE midE highE vocalEnergy).map (fun p => p.2)).sum) :=
      div_nonneg hs.1 htw.le
    unfold calculate_voice_confidence
    rw [if_pos hne]
    refine ⟨le_min (by norm_num) ?_, min_le_left _ _⟩
    split_ifs <;>
      first
        | exact le_max_of_le_right (by norm_num)
        | exact mul_nonneg hc1 (by norm_num)
        | exact hc1

lemma calculate_hnr_bounds (f0 harmonicE noiseE : ℝ) :
    0 ≤ calculate_hnr f0 harmonicE noiseE ∧
    calculate_hnr f0 harmonicE noiseE ≤ 40 := by
  unfold calculate_hnr
  split_ifs <;> exact ⟨by positivity, by norm_num⟩

lemma analyze_formants_sorted (roots : List ℂ) :
    (analyze_formants_lpc roots).Sorted (· ≤ ·) := by
  unfold analyze_formants_lpc
  exact (List.sorted_insertionSort _ _).sublist (List.take_sublist _ _)

lemma analyze_formants_length (roots : List ℂ) :
    (analyze_formants_lpc roots).length ≤ 4 := by
  unfold analyze_formants_lpc
  exact List.length_take_le _ _

lemma analyze_formants_range (roots : List ℂ) :
    ∀ f ∈ analyze_formants_lpc roots, 90 < f ∧ f < 5500 := by
  intro f hf
  unfold analyze_formants_lpc at hf
  have h1 := List.take_subset 4 _ hf
  have h2 := (List.perm_insertionSort (· ≤ ·) _).subset h1
  have h3 := List.mem_filter.mp h2
  simpa using h3.2

/-! ## The discrete Fourier transform and Parseval's identity

`np.fft.rfft` returns the bins `0 .. n/2` of the full DFT
`X_k = Σ_j x_j · exp(-2πi·k·j/n)`.  The VAD's `total_energy` is the sum
of the squared magnitudes of those bins; Parseval's identity together
with the conjugate symmetry of the spectrum of a real signal bounds it
from below by half of `n · Σ x_j²`. -/

/-- The principal DFT twiddle factor `exp(-2πi/n)`. -/
noncomputable def dftOmega (n : ℕ) : ℂ :=
  Complex.exp (((-(2 * Real.pi / n) : ℝ) : ℂ) * Complex.I)

/-- Bin `k` of the `n`-point DFT of the real signal `x`. -/
noncomputable def dftBin (n : ℕ) (x : ℕ → ℝ) (k : ℕ) : ℂ :=
  ∑ j ∈ Finset.range n, (x j : ℂ) * dftOmega n ^ (k * j)

lemma dftOmega_pow_n (n : ℕ) (hn : 0 < n) : dftOmega n ^ n = 1 := by
  rw [dftOmega, ← Complex.exp_nat_mul]
  have hcast : (n : ℂ) * (((-(2 * Real.pi / n) : ℝ) : ℂ) * Complex.I) =
      (-1 : ℤ) * (2 * (Real.pi : ℂ) * Complex.I) := by
    have hne : (n : ℂ) ≠ 0 := Nat.cast_ne_zero.mpr hn.ne'
    push_cast
    field_simp
    ring
  rw [hcast, Complex.exp_int_mul_two_pi_mul_I]

lemma dftOmega_ne_zero (n : ℕ) : dftOmega n ≠ 0 := Complex.exp_ne_zero _

lemma dftOmega_pow_ne_one (n d : ℕ) (h0 : 0 < d) (hd : d < n) :
    dftOmega n ^ d ≠ 1 := by
  have hn : 0 < n := lt_trans h0 hd
  rw [dftOmega, ← Complex.exp_nat_mul]
  intro h
  obtain ⟨m, hm⟩ := Complex.exp_eq_one_iff.mp h
  have him := congrArg Complex.im hm
  simp [Complex.mul_im, Complex.mul_re, Complex.ofReal_re, Complex.ofReal_im] at him
  -- him : d * (-(2π/n)) = m * 2π (up to arrangement)
  have hπ : (0:ℝ) < Real.pi := Real.pi_pos
  have hnR : (0:ℝ) < n := Nat.cast_pos.mpr hn
  have hmval : (m : ℝ) = -(d / n) := by
    field_simp at him ⊢
    nlinarith [him]
  have h1 : (m : ℝ) < 0 := by
    rw [hmval]
    have : (0:ℝ) < d / n := div_pos (Nat.cast_pos.mpr h0) hnR
    linarith
  have h2 : (-1 : ℝ) < m := by
    rw [hmval]
    have : (d:ℝ) / n < 1 := (div_lt_one hnR).mpr (Nat.cast_lt.mpr hd)
    linarith
  have h1' : m < 0 := by exact_mod_cast h1
  have h2' : (-1 : ℤ) < m := by exact_mod_cast h2
  omega

lemma dftOmega_pow_mod (n : ℕ) (hn : 0 < n) (t : ℕ) :
    dftOmega n ^ t = dftOmega n ^ (t % n) := by
  conv_lhs => rw [← Nat.div_add_mod t n]
  rw [pow_add, pow_mul, dftOmega_pow_n n hn, one_pow, one_mul]

/-- Orthogonality of the DFT characters: `Σ_{k<n} (ω^d)^k` is `n` when
`d = 0` and `0` for `0 < d < n`. -/
lemma dftOmega_geom_sum (n d : ℕ) (hn : 0 < n) (hd : d < n) :
    ∑ k ∈ Finset.range n, (dftOmega n ^ d) ^ k =
      if d = 0 then (n : ℂ) else 0 := by
  by_cases h : d = 0
  · simp [h]
  · rw [if_neg h]
    have hζ : dftOmega n ^ d ≠ 1 := dftOmega_pow_ne_one n d (Nat.pos_of_ne_zero h) hd
    rw [geom_sum_eq hζ, ← pow_mul, mul_comm d n, pow_mul, dftOmega_pow_n n hn,
      one_pow]
    simp

lemma conj_dftOmega (n : ℕ) (hn : 0 < n) :
    (starRingEnd ℂ) (dftOmega n) = dftOmega n ^ (n - 1) := by
  have habs : Complex.abs (dftOmega n) = 1 := Complex.abs_exp_ofReal_mul_I _
  have h1 : dftOmega n * (starRingEnd ℂ) (dftOmega n) = 1 := by
    rw [Complex.mul_conj, Complex.normSq_eq_abs, habs]
    norm_num
  have h2 : dftOmega n * dftOmega n ^ (n - 1) = 1 := by
    rw [← pow_succ', Nat.sub_add_cancel hn, dftOmega_pow_n n hn]
  exact mul_left_cancel₀ (dftOmega_ne_zero n) (h1.trans h2.symm)

lemma conj_dftBin (n : ℕ) (hn : 0 < n) (x : ℕ → ℝ) (k : ℕ) :
    (starRingEnd ℂ) (dftBin n x k) =
      ∑ m ∈ Finset.range n, (x m : ℂ) * dftOmega n ^ ((n - 1) * (k * m)) := by
  rw [dftBin, map_sum]
  refine Finset.sum_congr rfl fun m _ => ?_
  rw [map_mul, Complex.conj_ofReal, map_pow, conj_dftOmega n hn, ← pow_mul]

lemma diag_mod_iff (n j m : ℕ) (hn : 0 < n) (hj : j < n) (hm : m < n) :
    (j + (n - 1) * m) % n = 0 ↔ j = m := by
  constructor
  · intro hmod
    have hdvd : n ∣ j + (n - 1) * m := Nat.dvd_of_mod_eq_zero hmod
    have hdvd' : (n : ℤ) ∣ (j : ℤ) - m := by
      have hc : ((j + (n - 1) * m : ℕ) : ℤ) = n * m + ((j : ℤ) - m) := by
        push_cast [Nat.cast_sub (Nat.one_le_iff_ne_zero.mpr hn.ne')]
        ring
      have hint : (n : ℤ) ∣ ((j + (n - 1) * m : ℕ) : ℤ) := Int.natCast_dvd_natCast.mpr hdvd
      rw [hc] at hint
      exact (dvd_add_right ⟨(m : ℤ), rfl⟩).mp hint
    have habs : |(j : ℤ) - m| < n := by
      rw [abs_lt]
      constructor <;> omega
    have := Int.eq_zero_of_abs_lt_dvd hdvd' habs
    omega
  · intro h
    subst h
    have he : j + (n - 1) * j = n * j := by
      have h1 : j ≤ n * j := Nat.le_mul_of_pos_left j hn
      rw [Nat.sub_mul, one_mul]
      omega
    rw [he, Nat.mul_mod_right]

/-- Parseval's identity for the `n`-point DFT of a real signal. -/
lemma dft_parseval (n : ℕ) (hn : 0 < n) (x : ℕ → ℝ) :
    ∑ k ∈ Finset.range n, Complex.normSq (dftBin n x k) =
      n * ∑ j ∈ Finset.range n, x j ^ 2 := by
  have hexp : ∀ k, dftBin n x k * (starRingEnd ℂ) (dftBin n x k) =
      ∑ j ∈ Finset.range n, ∑ m ∈ Finset.range n,
        (x j : ℂ) * (x m : ℂ) * dftOmega n ^ (k * (j + (n - 1) * m)) := by
    intro k
    rw [conj_dftBin n hn, dftBin, Finset.sum_mul_sum]
    refine Finset.sum_congr rfl fun j _ => Finset.sum_congr rfl fun m _ => ?_
    rw [mul_mul_mul_comm, ← pow_add]
    congr 2
    ring
  have key : ∑ k ∈ Finset.range n, (dftBin n x k * (starRingEnd ℂ) (dftBin n x k)) =
      (n : ℂ) * ∑ j ∈ Finset.range n, (x j : ℂ) ^ 2 := by
    calc ∑ k ∈ Finset.range n, (dftBin n x k * (starRingEnd ℂ) (dftBin n x k))
        = ∑ k ∈ Finset.range n, ∑ j ∈ Finset.range n, ∑ m ∈ Finset.range n,
            (x j : ℂ) * (x m : ℂ) * dftOmega n ^ (k * (j + (n - 1) * m)) :=
          Finset.sum_congr rfl fun k _ => hexp k
      _ = ∑ j ∈ Finset.range n, ∑ k ∈ Finset.range n, ∑ m ∈ Finset.range n,
            (x j : ℂ) * (x m : ℂ) * dftOmega n ^ (k * (j + (n - 1) * m)) :=
          Finset.sum_comm
      _ = ∑ j ∈ Finset.range n, ∑ m ∈ Finset.range n, ∑ k ∈ Finset.range n,
            (x j : ℂ) * (x m : ℂ) * dftOmega n ^ (k * (j + (n - 1) * m)) :=
          Finset.sum_congr rfl fun j _ => Finset.sum_comm
      _ = ∑ j ∈ Finset.range n, ∑ m ∈ Finset.range n,
            (x j : ℂ) * (x m : ℂ) * (if j = m then (n : ℂ) else 0) := by
          refine Finset.sum_congr rfl fun j hj => Finset.sum_congr rfl fun m hm => ?_
          rw [← Finset.mul_sum]
          congr 1
          have hrw : ∀ k, dftOmega n ^ (k * (j + (n - 1) * m)) =
              (dftOmega n ^ ((j + (n - 1) * m) % n)) ^ k := by
            intro k
            rw [mul_comm k, pow_mul, ← dftOmega_pow_mod n hn]
          simp_rw [hrw]
          rw [dftOmega_geom_sum n _ hn (Nat.mod_lt _ hn)]
          simp only [diag_mod_iff n j m hn (Finset.mem_range.mp hj)
            (Finset.mem_range.mp hm)]
      _ = ∑ j ∈ Finset.range n, (x j : ℂ) ^ 2 * n := by
          refine Finset.sum_congr rfl fun j hj => ?_
          simp_rw [mul_ite, mul_zero]
          rw [Finset.sum_ite_eq (Finset.range n) j
            (fun m => (x j : ℂ) * (x m : ℂ) * n), if_pos hj]
          ring
      _ = (n : ℂ) * ∑ j ∈ Finset.range n, (x j : ℂ) ^ 2 := by
          rw [← Finset.sum_mul, mul_comm]
  have hreal : ((∑ k ∈ Finset.range n, Complex.normSq (dftBin n x k) : ℝ) : ℂ) =
      ((n * ∑ j ∈ Finset.range n, x j ^ 2 : ℝ) : ℂ) := by
    calc ((∑ k ∈ Finset.range n, Complex.normSq (dftBin n x k) : ℝ) : ℂ)
        = ∑ k ∈ Finset.range n, ((Complex.normSq (dftBin n x k) : ℝ) : ℂ) := by
          push_cast; rfl
      _ = ∑ k ∈ Finset.range n, (dftBin n x k * (starRingEnd ℂ) (dftBin n x k)) :=
          Finset.sum_congr rfl fun k _ => (Complex.mul_conj _).symm
      _ = (n : ℂ) * ∑ j ∈ Finset.range n, (x j : ℂ) ^ 2 := key
      _ = ((n * ∑ j ∈ Finset.range n, x j ^ 2 : ℝ) : ℂ) := by
          push_cast; ring
  exact_mod_cast hreal

lemma dftOmega_pow_congr (n : ℕ) (hn : 0 < n) {a b : ℕ} (h : a % n = b % n) :
    dftOmega n ^ a = dftOmega n ^ b := by
  rw [dftOmega_pow_mod n hn a, dftOmega_pow_mod n hn b, h]

/-- Conjugate symmetry of the DFT of a real signal:
`X_{n-j} = conj X_j`. -/
lemma dftBin_symm (n : ℕ) (hn : 0 < n) (x : ℕ → ℝ) (j : ℕ) (hj : j ≤ n) :
    dftBin n x (n - j) = (starRingEnd ℂ) (dftBin n x j) := by
  rw [conj_dftBin n hn, dftBin]
  refine Finset.sum_congr rfl fun m _ => ?_
  congr 1
  apply dftOmega_pow_congr n hn
  show (n - j) * m ≡ (n - 1) * (j * m) [MOD n]
  rw [Nat.modEq_iff_dvd]
  have hcast : (((n - 1) * (j * m) : ℕ) : ℤ) - (((n - j) * m : ℕ) : ℤ) =
      n * ((j : ℤ) * m - m) := by
    push_cast [Nat.cast_sub hj, Nat.cast_sub (show 1 ≤ n from hn)]
    ring
  rw [hcast]
  exact ⟨(j : ℤ) * m - m, rfl⟩

/-- The energy in the `rfft` half of the spectrum (bins `0..256` of a
512-point DFT) is at least half of the total signal energy scaled by
`n = 512`. -/
lemma dft_half_energy (x : ℕ → ℝ) :
    (512 : ℝ) * ∑ j ∈ Finset.range 512, x j ^ 2 ≤
      2 * ∑ k ∈ Finset.range 257, Complex.normSq (dftBin 512 x k) := by
  have hpar := dft_parseval 512 (by norm_num) x
  norm_num at hpar
  have hnonneg : ∀ k, 0 ≤ Complex.normSq (dftBin 512 x k) :=
    fun k => Complex.normSq_nonneg _
  have hsplit : ∑ k ∈ Finset.range 512, Complex.normSq (dftBin 512 x k) =
      ∑ k ∈ Finset.range 257, Complex.normSq (dftBin 512 x k) +
      ∑ k ∈ Finset.Ico 257 512, Complex.normSq (dftBin 512 x k) := by
    simp only [Finset.range_eq_Ico]
    exact (Finset.sum_Ico_consecutive _ (by norm_num : (0:ℕ) ≤ 257)
      (by norm_num : (257:ℕ) ≤ 512)).symm
  have htail : ∑ k ∈ Finset.Ico 257 512, Complex.normSq (dftBin 512 x k) =
      ∑ j ∈ Finset.Ico 1 256, Complex.normSq (dftBin 512 x j) := by
    refine Finset.sum_nbij' (fun k => 512 - k) (fun j => 512 - j) ?_ ?_ ?_ ?_ ?_
    · intro a ha; simp only [Finset.mem_Ico] at ha ⊢; omega
    · intro a ha; simp only [Finset.mem_Ico] at ha ⊢; omega
    · intro a ha
      simp only [Finset.mem_Ico] at ha
      show 512 - (512 - a) = a
      omega
    · intro a ha
      simp only [Finset.mem_Ico] at ha
      show 512 - (512 - a) = a
      omega
    · intro a ha
      simp only [Finset.mem_Ico] at ha
      have h1 : dftBin 512 x (512 - (512 - a)) = (starRingEnd ℂ) (dftBin 512 x (512 - a)) :=
        dftBin_symm 512 (by norm_num) x (512 - a) (by omega)
      have h2 : 512 - (512 - a) = a := by omega
      rw [h2] at h1
      rw [h1, Complex.normSq_conj]
  have hsub : ∑ j ∈ Finset.Ico 1 256, Complex.normSq (dftBin 512 x j) ≤
      ∑ k ∈ Finset.range 257, Complex.normSq (dftBin 512 x k) := by
    refine Finset.sum_le_sum_of_subset_of_nonneg ?_ (fun i _ _ => hnonneg i)
    intro a ha
    simp only [Finset.mem_Ico] at ha
    simp only [Finset.mem_range]
    omega
  linarith

/-! ## Quick VAD check (industry_voice_detection.py, quick_vad_check) -/

/-- The `rfft` bins (out of the 257 bins of a 512-sample frame at
48 kHz) whose centre frequency `k·48000/512 = 93.75·k` lies in
`[lo, hi]` — the boolean frequency masks of `quick_vad_check`. -/
def vadBins (lo hi : ℚ) : Finset ℕ :=
  (Finset.range 257).filter (fun k => lo ≤ (375/4 : ℚ) * k ∧ (375/4 : ℚ) * k ≤ hi)

/-- Magnitude of rfft bin `k`: `np.abs(np.fft.rfft(audio_frame))[k]`. -/
noncomputable def vadMagnitude (x : ℕ → ℝ) (k : ℕ) : ℝ :=
  Complex.abs (dftBin 512 x k)

/-- Band energy `np.sum(magnitude[mask] ** 2)`. -/
noncomputable def vadBandEnergy (x : ℕ → ℝ) (lo hi : ℚ) : ℝ :=
  ∑ k ∈ vadBins lo hi, vadMagnitude x k ^ 2

/-- `total_energy = np.sum(magnitude ** 2)` over all 257 rfft bins. -/
noncomputable def vadTotalEnergy (x : ℕ → ℝ) : ℝ :=
  ∑ k ∈ Finset.range 257, vadMagnitude x k ^ 2

open Classical in
/-- `quick_vad_check`, returning `(voice flag, updated vocal-energy
history, updated hangover counter)`.  In the `total_energy ≤ 1e-10`
branch only `vocal_probability` is assigned, so the final decision
expression reads the never-assigned `vocal_core_ratio` — an
`UnboundLocalError` — unless Python's short-circuiting `or` already
settled the decision through `has_vocal_energy` (the preceding
conjunctive disjunct is false there because `vocal_probability` is 0).
The adaptive `vocal_energy_active` flag is computed by the source but
does not enter the decision, and is omitted. -/
noncomputable def quick_vad_check (x : ℕ → ℝ) (energyHist : List ℝ)
    (counter : ℕ) : Except String (Bool × List ℝ × ℕ) :=
  let rms := Real.sqrt ((∑ j ∈ Finset.range 512, x j ^ 2) / 512)
  let vocalCore := vadBandEnergy x 200 3500
  let drumBass := vadBandEnergy x 20 150
  let highFreq := vadBandEnergy x 3500 8000
  let total := vadTotalEnergy x
  let hist' := pushMax 10 energyHist vocalCore
  let nbins : ℝ := ((vadBins 200 3500).card : ℝ)
  let smean := (∑ k ∈ vadBins 200 3500, (vadMagnitude x k + 1/10000000000)) / nbins
  let sgeo := Real.exp
    ((∑ k ∈ vadBins 200 3500, Real.log (vadMagnitude x k + 1/10000000000)) / nbins)
  let isTonal := sgeo / (smean + 1/10000000000) < 4/5
  let energySufficient := 1/200 < rms
  let hasVocalEnergy := total * (1/50) < vocalCore
  if 1/10000000000 < total then
    let vocalScore := vocalCore / total + highFreq / total * (1/2)
    let drumSupp := max (1/10) (1 - drumBass / total * 2)
    let raw : Bool := decide
      ((energySufficient ∧ 1/20 < vocalScore * drumSupp ∧ isTonal) ∨
        hasVocalEnergy ∨ 2/25 < vocalCore / total)
    Except.ok ((vadHangover counter raw).1, hist', (vadHangover counter raw).2)
  else
    if hasVocalEnergy then
      Except.ok ((vadHangover counter true).1, hist', (vadHangover counter true).2)
    else Except.error "UnboundLocalError: vocal_core_ratio referenced before assignment"

/-- Any frame whose RMS passes the caller's `energy ≥ 0.001` guard has
total spectral energy far above the `1e-10` threshold — by Parseval and
conjugate symmetry the rfft half-spectrum carries at least
`256 · Σ x_j² ≥ 256 · 512 · 10⁻⁶`. -/
lemma vad_total_energy_large (x : ℕ → ℝ)
    (h : 1/1000 ≤ Real.sqrt ((∑ j ∈ Finset.range 512, x j ^ 2) / 512)) :
    1/10000000000 < vadTotalEnergy x := by
  have hS : (0:ℝ) ≤ ∑ j ∈ Finset.range 512, x j ^ 2 :=
    Finset.sum_nonneg fun j _ => sq_nonneg _
  have h2 : ((1:ℝ)/1000)^2 ≤ (∑ j ∈ Finset.range 512, x j ^ 2)/512 :=
    (Real.le_sqrt (by norm_num) (div_nonneg hS (by norm_num))).mp h
  have h4 := dft_half_energy x
  have h5 : vadTotalEnergy x = ∑ k ∈ Finset.range 257, Complex.normSq (dftBin 512 x k) := by
    unfold vadTotalEnergy vadMagnitude
    exact Finset.sum_congr rfl fun k _ => Complex.sq_abs _
  rw [h5]
  nlinarith [h2, h4]

lemma quick_vad_check_ok (x : ℕ → ℝ) (energyHist : List ℝ) (counter : ℕ)
    (h : 1/1000 ≤ Real.sqrt ((∑ j ∈ Finset.range 512, x j ^ 2) / 512)) :
    ∃ r, quick_vad_check x energyHist counter = Except.ok r := by
  have htot := vad_total_energy_large x h
  unfold quick_vad_check
  simp only
  rw [if_pos htot]
  exact ⟨_, rfl⟩

/-! # Claim theorems -/

/-- C2: a kick detection fires iff the sub-band flux exceeds its adaptive
threshold, the body-band flux exceeds its adaptive threshold, more than
100 ms have passed since the previous kick detection, and the sub and
body flux histories each hold at least 10 values; consequently, over any
run, consecutive kick detections lie at least 100 ms apart and
consecutive snare detections at least 80 ms apart. -/
theorem claim_C2_kick_detection_iff_and_refractory :
    (∀ (st : KickState) (mag : List ℚ) (t : ℚ),
      (detect_kick_onset st mag t).1.detected = true ↔
        (10 ≤ (detect_kick_onset st mag t).2.subHist.length ∧
         10 ≤ (detect_kick_onset st mag t).2.bodyHist.length ∧
         1/10 < t - st.lastKickTime ∧
         (detect_kick_onset st mag t).1.subThreshold <
           (detect_kick_onset st mag t).1.subFlux ∧
         (detect_kick_onset st mag t).1.bodyThreshold <
           (detect_kick_onset st mag t).1.bodyFlux)) ∧
    (∀ (st : KickState) (inputs : List (ℚ × List ℚ)),
      List.Chain' (fun t1 t2 => 1/10 ≤ t2 - t1) (kickDetTimes st inputs)) ∧
    (∀ (st : SnareState) (inputs : List (ℚ × List ℚ)),
      List.Chain' (fun t1 t2 => 2/25 ≤ t2 - t1) (snareDetTimes st inputs)) :=
  ⟨kick_detected_iff,
   fun st inputs => (kick_spacing_aux inputs st).2,
   fun st inputs => (snare_spacing_aux inputs st).2⟩

/-- C6: the voice-frame invariants — pitch confidence lies in `[0, 1]`,
overall voice confidence lies in `[0, 1]`, HNR lies in `[0, 40]` dB, and
the formant list is sorted ascending with at most 4 entries, each
strictly between 90 and 5500 Hz. -/
theorem claim_C6_voice_result_invariants :
    (∀ (autocorr : List ℚ) (frameSize : ℕ) (history : List ℚ),
      0 ≤ (detect_pitch_yin autocorr frameSize history).2.1 ∧
      (detect_pitch_yin autocorr frameSize history).2.1 ≤ 1) ∧
    (∀ (pitchConf pitch hnr : ℚ) (formants : List ℚ) (hasSpectral : Bool)
      (flatness lowE midE highE vocalEnergy : ℚ),
      0 ≤ calculate_voice_confidence pitchConf pitch hnr formants hasSpectral
        flatness lowE midE highE vocalEnergy ∧
      calculate_voice_confidence pitchConf pitch hnr formants hasSpectral
        flatness lowE midE highE vocalEnergy ≤ 1) ∧
    (∀ f0 harmonicE noiseE : ℝ,
      0 ≤ calculate_hnr f0 harmonicE noiseE ∧
      calculate_hnr f0 harmonicE noiseE ≤ 40) ∧
    (∀ roots : List ℂ,
      (analyze_formants_lpc roots).Sorted (· ≤ ·) ∧
      (analyze_formants_lpc roots).length ≤ 4 ∧
      ∀ f ∈ analyze_formants_lpc roots, 90 < f ∧ f < 5500) :=
  ⟨detect_pitch_yin_conf_bounds,
   calculate_voice_confidence_bounds,
   calculate_hnr_bounds,
   fun roots => ⟨analyze_formants_sorted roots, analyze_formants_length roots,
     analyze_formants_range roots⟩⟩

/-- C9: the VAD hangover counter is set to 12 on every raw detection and
decremented (saturating at 0) otherwise, the voice flag is asserted
whenever the counter is positive, and after any raw detection the voice
flag stays asserted for at least the next 12 VAD calls whatever their
raw outcomes. -/
theorem claim_C9_vad_hangover :
    (∀ c : ℕ, vadHangover c true = (true, 12)) ∧
    (∀ c : ℕ, 0 < c → vadHangover c false = (true, c - 1)) ∧
    (vadHangover 0 false = (false, 0)) ∧
    (∀ bs : List Bool, bs.length ≤ 12 → ∀ b ∈ vadRun 12 bs, b = true) := by
  refine ⟨fun c => rfl, fun c hc => ?_, rfl, fun bs hlen => vadRun_all_true bs 12 hlen le_rfl⟩
  simp [vadHangover, hc]

/-- Witness for C9 at concrete inputs: a counter of 5 decrements to 4
with the flag asserted, and after a detection the following 12 silent
frames all keep the voice flag asserted. -/
theorem claim_C9_witness :
    vadHangover 5 false = (true, 4) ∧
    (∀ b ∈ vadRun 12 (List.replicate 12 false), b = true) :=
  ⟨by simpa using claim_C9_vad_hangover.2.1 5 (by norm_num),
   claim_C9_vad_hangover.2.2.2 (List.replicate 12 false) (by simp)⟩

/-- C10: on any frame whose RMS passes the caller's `0.001` guard, the
total spectral energy exceeds `1e-10` (by Parseval's identity), so
`quick_vad_check` takes the branch that assigns all its ratios and
returns without reaching the read of the unassigned `vocal_core_ratio`. -/
theorem claim_C10_vad_total_energy_guard :
    ∀ (x : ℕ → ℝ) (energyHist : List ℝ) (counter : ℕ),
      1/1000 ≤ Real.sqrt ((∑ j ∈ Finset.range 512, x j ^ 2) / 512) →
      1/10000000000 < vadTotalEnergy x ∧
      ∃ r, quick_vad_check x energyHist counter = Except.ok r :=
  fun x energyHist counter h =>
    ⟨vad_total_energy_large x h, quick_vad_check_ok x energyHist counter h⟩

/-- Witness for C10 on the constant all-ones frame. -/
theorem claim_C10_witness :
    1/1000 ≤ Real.sqrt ((∑ j ∈ Finset.range 512, (fun _ : ℕ => (1:ℝ)) j ^ 2) / 512) ∧
    ∃ r, quick_vad_check (fun _ : ℕ => (1:ℝ)) [] 0 = Except.ok r := by
  have h : (1:ℝ)/1000 ≤
      Real.sqrt ((∑ j ∈ Finset.range 512, (fun _ : ℕ => (1:ℝ)) j ^ 2) / 512) := by
    simp only [one_pow, Finset.sum_const, Finset.card_range, nsmul_eq_mul, mul_one]
    norm_num [Real.sqrt_one]
  exact ⟨h, (claim_C10_vad_total_energy_guard (fun _ => 1) [] 0 h).2⟩

/-- C7: frames whose RMS is below 0.001 yield the well-formed inactive
result carrying that RMS (voice off, zero confidences, no formants,
`voice_type = "unknown"`); the inactive result is fully populated as
described; the all-zero frame takes this path (its RMS is 0); and when
the remainder of the `try` block signals an error, the top-level
detector still returns the safe default record rather than throwing. -/
theorem claim_C7_rms_guard_and_error_handling :
    (∀ (n : ℕ) (x : ℕ → ℝ) (inner : ℝ → Except String VoiceResult),
      rmsEnergy n x < 1/1000 →
      detect_voice_realtime n x inner = initResults (rmsEnergy n x)) ∧
    (∀ e : ℝ, (initResults e).has_voice = false ∧
      (initResults e).voice_confidence = 0 ∧ (initResults e).pitch_confidence = 0 ∧
      (initResults e).formants = [] ∧ (initResults e).voice_type = "unknown" ∧
      (initResults e).vocal_energy = e) ∧
    (∀ n : ℕ, rmsEnergy n (fun _ => 0) = 0) ∧
    (∀ (n : ℕ) (x : ℕ → ℝ) (inner : ℝ → Except String VoiceResult) (e : String),
      ¬ rmsEnergy n x < 1/1000 → inner (rmsEnergy n x) = Except.error e →
      detect_voice_realtime n x inner = safeDefaultResults) := by
  refine ⟨fun n x inner h => ?_, fun e => ⟨rfl, rfl, rfl, rfl, rfl, rfl⟩,
    fun n => ?_, fun n x inner e hge herr => ?_⟩
  · unfold detect_voice_realtime
    simp only
    rw [if_pos h]
  · unfold rmsEnergy
    simp [Real.sqrt_eq_zero']
  · unfold detect_voice_realtime
    simp only
    rw [if_neg hge, herr]

/-- Witness for C7: the all-zero 512-sample frame takes the guard path
whatever the inner analysis would do, and an erroring inner analysis on
a loud frame yields the safe default. -/
theorem claim_C7_witness :
    rmsEnergy 512 (fun _ => 0) < 1/1000 ∧
    detect_voice_realtime 512 (fun _ => 0) (fun _ => Except.error "numerical") =
      initResults (rmsEnergy 512 (fun _ => 0)) ∧
    ¬ rmsEnergy 512 (fun _ => (1:ℝ)) < 1/1000 ∧
    detect_voice_realtime 512 (fun _ => (1:ℝ)) (fun _ => Except.error "numerical") =
      safeDefaultResults := by
  have h0 : rmsEnergy 512 (fun _ => (0:ℝ)) = 0 :=
    claim_C7_rms_guard_and_error_handling.2.2.1 512
  have h0' : rmsEnergy 512 (fun _ => (0:ℝ)) < 1/1000 := by rw [h0]; norm_num
  have h1 : rmsEnergy 512 (fun _ => (1:ℝ)) = 1 := by
    unfold rmsEnergy
    simp only [one_pow, Finset.sum_const, Finset.card_range, nsmul_eq_mul, mul_one]
    norm_num [Real.sqrt_one]
  have h1' : ¬ rmsEnergy 512 (fun _ => (1:ℝ)) < 1/1000 := by rw [h1]; norm_num
  exact ⟨h0',
    claim_C7_rms_guard_and_error_handling.1 512 (fun _ => 0)
      (fun _ => Except.error "numerical") h0',
    h1',
    claim_C7_rms_guard_and_error_handling.2.2.2 512 (fun _ => (1:ℝ))
      (fun _ => Except.error "numerical") "numerical" h1' rfl⟩

/-- C3 (code defect): feeding eight 512-sample chunks wraps the ring
write position to 0; `process_audio_chunk` has no extraction branch for
that position, so `audio_buffer` keeps the previous frame's window
(samples of chunks 3..6, values 3,4,5,6) instead of the newest 2048
samples (chunks 4..7, values 4,5,6,7): the FFT input is stale by one
chunk on every 8th call. -/
theorem claim_C3_ring_buffer_wrap_stale :
    (processChunks RingState.init
      [fun _ => 0, fun _ => 1, fun _ => 2, fun _ => 3,
       fun _ => 4, fun _ => 5, fun _ => 6, fun _ => 7]).pos = 0 ∧
    (processChunks RingState.init
      [fun _ => 0, fun _ => 1, fun _ => 2, fun _ => 3,
       fun _ => 4, fun _ => 5, fun _ => 6, fun _ => 7]).buf 0 = 3 ∧
    newestWindow (processChunks RingState.init
      [fun _ => 0, fun _ => 1, fun _ => 2, fun _ => 3,
       fun _ => 4, fun _ => 5, fun _ => 6, fun _ => 7]) 0 = 4 ∧
    (processChunks RingState.init
      [fun _ => 0, fun _ => 1, fun _ => 2, fun _ => 3,
       fun _ => 4, fun _ => 5, fun _ => 6, fun _ => 7]).buf 0 ≠
    newestWindow (processChunks RingState.init
      [fun _ => 0, fun _ => 1, fun _ => 2, fun _ => 3,
       fun _ => 4, fun _ => 5, fun _ => 6, fun _ => 7]) 0 := by
  refine ⟨by decide, by decide, by decide, by decide⟩

/-- C1 (amended): after normalisation every target is in `[0, 1]`, and
the smoothing update keeps all bar heights in `[0, 143/125]` (the
maximum effective attack is `0.8·1.3·1.1 = 143/125`); with the voice
flag off every attack coefficient is at most 1 and heights stay in
`[0, 1]`.  The claim's bound of 1 for voice-active frames fails — see
the counterexample. -/
theorem claim_C1_smoothing_bounds :
    (∀ (kick snare voice singing : Bool) (freqLos bands heights : List ℚ),
      (∀ b ∈ bands, 0 ≤ b) → (∀ c ∈ heights, 0 ≤ c ∧ c ≤ 143/125) →
      ∀ y ∈ smoothFrame kick snare voice singing freqLos bands heights,
        0 ≤ y ∧ y ≤ 143/125) ∧
    (∀ (kick snare singing : Bool) (freqLos bands heights : List ℚ),
      (∀ b ∈ bands, 0 ≤ b) → (∀ c ∈ heights, 0 ≤ c ∧ c ≤ 1) →
      ∀ y ∈ smoothFrame kick snare false singing freqLos bands heights,
        0 ≤ y ∧ y ≤ 1) :=
  ⟨fun kick snare voice singing =>
    smoothFrame_bounds kick snare voice singing (143/125) (by norm_num)
      (fun f => barAttack_le f kick snare voice singing),
   fun kick snare singing =>
    smoothFrame_bounds kick snare false singing 1 le_rfl
      (fun f => barAttack_le_one_of_no_voice f kick snare singing)⟩

/-- Counterexample for C1: with voice active, a bar at 1000 Hz whose
current height is 0 and whose normalised target is 1 is driven to
`0.85·1.2 = 51/50 > 1` by a single update. -/
theorem claim_C1_counterexample :
    (smoothFrame false false true false [1000] [1] [0]).getD 0 0 = 51/50 ∧
    (1 : ℚ) < (smoothFrame false false true false [1000] [1] [0]).getD 0 0 := by
  have h : smoothFrame false false true false [1000] [1] [0] = [51/50] := by
    norm_num [smoothFrame, normalizeBars, maxQ, smoothBars, smoothBar, barAttack]
  rw [h]
  norm_num

/-- Witness for C1 at a concrete frame: a single 1000 Hz bar with band
value 1 and height 0, with voice active, stays within `[0, 143/125]`. -/
theorem claim_C1_witness :
    (∀ b ∈ [(1:ℚ)], 0 ≤ b) ∧ (∀ c ∈ [(0:ℚ)], 0 ≤ c ∧ c ≤ 143/125) ∧
    ∀ y ∈ smoothFrame false false true false [1000] [1] [0],
      0 ≤ y ∧ y ≤ 143/125 := by
  refine ⟨by norm_num, by norm_num, ?_⟩
  exact claim_C1_smoothing_bounds.1 false false true false [1000] [1] [0]
    (by norm_num) (by norm_num)

/-- C4 (amended): voice classification from pitch follows the table with
first match winning — whenever some table range contains the pitch, the
classifier returns the first matching entry; at 220 Hz with no formants
the first matching range is tenor (123–246 precedes alto in iteration
order), so the pitch-only path chooses "tenor". -/
theorem claim_C4_pitch_table_first_match :
    (∀ (pitch : ℚ) (formants : List ℚ) (name : String),
      firstRangeMatch pitch = some name →
      classify_voice_type pitch formants = name) ∧
    classify_voice_type 220 [] = "tenor" := by
  have hmain : ∀ (pitch : ℚ) (formants : List ℚ) (name : String),
      firstRangeMatch pitch = some name →
      classify_voice_type pitch formants = name := by
    intro pitch formants name h
    have hpos : 0 < pitch := by
      obtain ⟨r, hr, hrn⟩ := Option.map_eq_some'.mp h
      have hmem := List.mem_of_find?_eq_some hr
      have hpred := List.find?_some hr
      simp only [decide_eq_true_eq] at hpred
      have hlo : (75:ℚ) ≤ r.2.1 := by
        simp only [voiceRanges, List.mem_cons, List.mem_singleton] at hmem
        rcases hmem with h1 | h1 | h1 | h1 | h1 | h1 | h1 | h1 <;>
          first | (subst h1; norm_num) | simp at h1
      linarith [hpred.1]
    unfold classify_voice_type
    rw [if_neg (not_le.mpr hpos), h]
  refine ⟨hmain, hmain 220 [] "tenor" ?_⟩
  norm_num [firstRangeMatch, voiceRanges, List.find?]

/-- Counterexample for C4: at a detected pitch of 220 Hz with no
formants, the classifier returns "tenor", not "alto" (and not
"mezzo-soprano"): the claim's `voice_type ∈ {alto, mezzo-soprano}` fails
because the tenor range 123–246 precedes alto and contains 220. -/
theorem claim_C4_counterexample :
    classify_voice_type 220 [] = "tenor" ∧
    classify_voice_type 220 [] ≠ "alto" ∧
    classify_voice_type 220 [] ≠ "mezzo-soprano" := by
  have h : classify_voice_type 220 [] = "tenor" := by
    norm_num [classify_voice_type, firstRangeMatch, voiceRanges, List.find?]
  exact ⟨h, by rw [h]; decide, by rw [h]; decide⟩

/-- Witness for C4 at 220 Hz: the first matching table entry is tenor
and the classifier follows it. -/
theorem claim_C4_witness :
    firstRangeMatch 220 = some "tenor" ∧
    classify_voice_type 220 [] = "tenor" := by
  have h : firstRangeMatch 220 = some "tenor" := by
    norm_num [firstRangeMatch, voiceRanges, List.find?]
  exact ⟨h, claim_C4_pitch_table_first_match.1 220 [] "tenor" h⟩

/-- C8: the tempo estimator discards intervals outside `[0.2, 2.0]` s,
returns 0 when fewer than 3 raw intervals or fewer than 2 kept intervals
remain, and otherwise computes `BPM = 60 / median(kept)` and returns the
nearest value of `{60, 70, …, 180}` whenever the BPM is within 8 of it,
else the raw BPM. -/
theorem claim_C8_tempo_estimation :
    (∀ intervals : List ℚ,
      intervals.length < 3 ∨
        (intervals.filter (fun i => decide (validInterval i))).length < 2 →
      estimate_tempo_from_intervals intervals = 0) ∧
    (∀ intervals : List ℚ, 3 ≤ intervals.length →
      2 ≤ (intervals.filter (fun i => decide (validInterval i))).length →
      closestCommonBpm
        (60 / medianQ (intervals.filter (fun i => decide (validInterval i)))) ∈
        commonBpms ∧
      (∀ c ∈ commonBpms,
        |closestCommonBpm
          (60 / medianQ (intervals.filter (fun i => decide (validInterval i)))) -
          60 / medianQ (intervals.filter (fun i => decide (validInterval i)))| ≤
        |c - 60 / medianQ (intervals.filter (fun i => decide (validInterval i)))|) ∧
      estimate_tempo_from_intervals intervals =
        (if |60 / medianQ (intervals.filter (fun i => decide (validInterval i))) -
             closestCommonBpm
               (60 / medianQ (intervals.filter (fun i => decide (validInterval i))))| < 8
         then closestCommonBpm
           (60 / medianQ (intervals.filter (fun i => decide (validInterval i))))
         else 60 / medianQ (intervals.filter (fun i => decide (validInterval i))))) := by
  constructor
  · intro intervals h
    unfold estimate_tempo_from_intervals
    rcases h with h | h
    · rw [if_pos h]
    · by_cases hlen : intervals.length < 3
      · rw [if_pos hlen]
      · rw [if_neg hlen]
        simp only
        rw [if_pos h]
  · intro intervals h3 h2
    refine ⟨closestCommonBpm_mem _, closestCommonBpm_min _, ?_⟩
    unfold estimate_tempo_from_intervals
    rw [if_neg (by omega)]
    simp only
    rw [if_neg (by omega)]

/-- Witness for C8 on three one-second intervals: all are kept, the
median is 1 s, the BPM is 60, which is itself a common BPM value. -/
theorem claim_C8_witness :
    3 ≤ ([1, 1, 1] : List ℚ).length ∧
    2 ≤ (([1, 1, 1] : List ℚ).filter (fun i => decide (validInterval i))).length ∧
    closestCommonBpm
      (60 / medianQ (([1, 1, 1] : List ℚ).filter (fun i => decide (validInterval i)))) ∈
      commonBpms ∧
    estimate_tempo_from_intervals [1, 1, 1] =
      (if |60 / medianQ (([1, 1, 1] : List ℚ).filter (fun i => decide (validInterval i))) -
           closestCommonBpm
             (60 / medianQ (([1, 1, 1] : List ℚ).filter (fun i => decide (validInterval i))))| < 8
       then closestCommonBpm
         (60 / medianQ (([1, 1, 1] : List ℚ).filter (fun i => decide (validInterval i))))
       else 60 / medianQ (([1, 1, 1] : List ℚ).filter (fun i => decide (validInterval i)))) := by
  have hf : (([1, 1, 1] : List ℚ).filter (fun i => decide (validInterval i))) = [1, 1, 1] := by
    norm_num [validInterval, List.filter]
  have h3 : 3 ≤ ([1, 1, 1] : List ℚ).length := by norm_num
  have h2 : 2 ≤ (([1, 1, 1] : List ℚ).filter (fun i => decide (validInterval i))).length := by
    rw [hf]; norm_num
  exact ⟨h3, h2, (claim_C8_tempo_estimation.2 [1, 1, 1] h3 h2).1,
    (claim_C8_tempo_estimation.2 [1, 1, 1] h3 h2).2.2⟩

/-! ### A concrete kick detection exercising the velocity formula

State: previous magnitude all zero, sub and body flux histories holding
nine values of 1, last kick at time 0.  Frame: magnitude of length 400
(so the sub band is bin 0, the body band bin 1, the click band bins
33..82) with value 11/10 in bins 0 and 1.  Both fluxes are 11/10 against
thresholds of 1, so a kick fires at time 1 with strength
`(2/5 + 1/2) · (11/10)/(1 + 10⁻⁶) = 990000/1000001 ≈ 0.99`, whose
truncated velocity 125 differs from the rounded value 126. -/

def kickExState : KickState :=
  ⟨1, some (List.replicate 400 0), List.replicate 9 1, List.replicate 9 1,
   [], 0, 0, 0, 0⟩

def kickExMag : List ℚ :=
  ((List.replicate 400 (0:ℚ)).set 0 (11/10)).set 1 (11/10)

lemma kickExMag_length : kickExMag.length = 400 := by
  simp [kickExMag]

lemma kickEx_prev_getD : ∀ i : ℕ, (List.replicate 400 (0:ℚ)).getD i 0 = 0 := by
  intro i
  rw [List.getD_eq_getElem?_getD, List.getElem?_replicate]
  split_ifs <;> rfl

lemma kickEx_mag_getD0 : kickExMag.getD 0 0 = 11/10 := by
  rw [kickExMag, List.getD_eq_getElem?_getD, List.getElem?_set_ne (by norm_num),
    List.getElem?_set_self (by simp)]
  rfl

lemma kickEx_mag_getD1 : kickExMag.getD 1 0 = 11/10 := by
  rw [kickExMag, List.getD_eq_getElem?_getD, List.getElem?_set_self (by simp)]
  rfl

lemma kickEx_mag_getD_hi : ∀ i : ℕ, 2 ≤ i → kickExMag.getD i 0 = 0 := by
  intro i hi
  rw [kickExMag, List.getD_eq_getElem?_getD, List.getElem?_set_ne (by omega),
    List.getElem?_set_ne (by omega), List.getElem?_replicate]
  split_ifs <;> rfl

lemma kickEx_mag_opt0 : kickExMag[0]?.getD 0 = 11/10 := by
  rw [kickExMag, List.getElem?_set_ne (by norm_num),
    List.getElem?_set_self (by simp)]
  rfl

lemma kickEx_mag_opt1 : kickExMag[1]?.getD 0 = 11/10 := by
  rw [kickExMag, List.getElem?_set_self (by simp)]
  rfl

lemma kickEx_subFlux : bandFlux kickExMag (List.replicate 400 0) 0 1 = 11/10 := by
  unfold bandFlux
  rw [kickExMag_length]
  norm_num
  rw [kickEx_mag_opt0, sup_eq_right.mpr (by norm_num : (0:ℚ) ≤ 11/10)]

lemma kickEx_bodyFlux : bandFlux kickExMag (List.replicate 400 0) 1 2 = 11/10 := by
  unfold bandFlux
  rw [kickExMag_length]
  norm_num
  rw [kickEx_mag_opt1, sup_eq_right.mpr (by norm_num : (0:ℚ) ≤ 11/10)]

lemma kickEx_clickFlux : bandFlux kickExMag (List.replicate 400 0) 33 83 = 0 := by
  unfold bandFlux
  refine Finset.sum_eq_zero fun i hi => ?_
  rw [Finset.mem_Ico] at hi
  rw [kickEx_mag_getD_hi i (by omega), kickEx_prev_getD]
  norm_num

lemma kickEx_push : pushMax 21 (List.replicate 9 (1:ℚ)) (11/10) =
    [1, 1, 1, 1, 1, 1, 1, 1, 1, 11/10] := by
  norm_num [pushMax, List.replicate]

lemma kickEx_threshold :
    adaptiveThreshold 1 (14/5) [1, 1, 1, 1, 1, 1, 1, 1, 1, 11/10] = 1 := by
  norm_num [adaptiveThreshold, madQ, medianQ, List.insertionSort, List.orderedInsert]

lemma kickEx_threshold_click : adaptiveThreshold 1 (14/5) (pushMax 21 [] (0:ℚ)) = 0 := by
  norm_num [adaptiveThreshold, pushMax]

lemma kickExample_detected :
    (detect_kick_onset kickExState kickExMag 1).1.detected = true := by
  simp only [detect_kick_onset, kickExState, kickExMag_length]
  norm_num [kickEx_subFlux, kickEx_bodyFlux, kickEx_push, kickEx_threshold, binOf]

lemma kickExample_strength :
    (detect_kick_onset kickExState kickExMag 1).1.strength = 990000/1000001 := by
  simp only [detect_kick_onset, kickExState, kickExMag_length]
  norm_num [kickEx_subFlux, kickEx_bodyFlux, kickEx_clickFlux, kickEx_push,
    kickEx_threshold, kickEx_threshold_click, binOf]

lemma kickExample_velocity :
    (detect_kick_onset kickExState kickExMag 1).1.velocity = 125 := by
  simp only [detect_kick_onset, kickExState, kickExMag_length]
  norm_num [kickEx_subFlux, kickEx_bodyFlux, kickEx_clickFlux, kickEx_push,
    kickEx_threshold, kickEx_threshold_click, binOf, reportVelocity, pyInt]

/-- C5 (amended): on every kick and snare detection the reported
velocity is `min(127, int(strength · 127))` — Python `int` truncation
(floor for the nonnegative strengths), not rounding to nearest — and for
strengths in `[0, 1]` this equals `⌊strength · 127⌋` and lies in
`[0, 127]`. -/
theorem claim_C5_velocity_truncation :
    (∀ (st : KickState) (mag : List ℚ) (t : ℚ),
      (detect_kick_onset st mag t).1.detected = true →
      (detect_kick_onset st mag t).1.velocity =
        reportVelocity (detect_kick_onset st mag t).1.strength) ∧
    (∀ (st : SnareState) (mag : List ℚ) (t : ℚ),
      (detect_snare_onset st mag t).1.detected = true →
      (detect_snare_onset st mag t).1.velocity =
        reportVelocity (detect_snare_onset st mag t).1.strength) ∧
    (∀ s : ℚ, 0 ≤ s → s ≤ 1 →
      reportVelocity s = ⌊s * 127⌋ ∧ 0 ≤ reportVelocity s ∧
      reportVelocity s ≤ 127) := by
  refine ⟨fun st mag t h => ?_, fun st mag t h => ?_, fun s h0 h1 => ?_⟩
  · simp only [detect_kick_onset] at h ⊢
    rw [h]
    simp
  · simp only [detect_snare_onset] at h ⊢
    rw [h]
    simp
  · have hq : (0:ℚ) ≤ s * 127 := by positivity
    have hle : ⌊s * 127⌋ ≤ 127 := by
      have := Int.floor_le_floor (α := ℚ) (show s * 127 ≤ (127:ℚ) by linarith)
      simpa using this
    have heq : reportVelocity s = ⌊s * 127⌋ := by
      rw [reportVelocity, pyInt, if_pos hq, min_eq_right hle]
    exact ⟨heq, by rw [heq]; exact Int.floor_nonneg.mpr hq,
      by rw [reportVelocity]; exact min_le_left _ _⟩

/-- Counterexample for C5: a concrete kick detection with strength
`990000/1000001 ≈ 0.99` reports velocity `int(0.99·127) = 125`, while
`round(0.99·127) = 126`: the code truncates rather than rounds. -/
theorem claim_C5_counterexample :
    (detect_kick_onset kickExState kickExMag 1).1.detected = true ∧
    0 ≤ (detect_kick_onset kickExState kickExMag 1).1.strength ∧
    (detect_kick_onset kickExState kickExMag 1).1.strength ≤ 1 ∧
    (detect_kick_onset kickExState kickExMag 1).1.velocity = 125 ∧
    round ((detect_kick_onset kickExState kickExMag 1).1.strength * 127) = 126 ∧
    (detect_kick_onset kickExState kickExMag 1).1.velocity ≠
      round ((detect_kick_onset kickExState kickExMag 1).1.strength * 127) := by
  have hs := kickExample_strength
  have hv := kickExample_velocity
  have hr : round ((990000/1000001 : ℚ) * 127) = 126 := by
    rw [round_eq, Int.floor_eq_iff]
    norm_num
  refine ⟨kickExample_detected, by rw [hs]; norm_num, by rw [hs]; norm_num,
    hv, by rw [hs, hr], by rw [hs, hv, hr]; norm_num⟩

/-- Witness for C5 on the concrete kick detection and on strength 1/2. -/
theorem claim_C5_witness :
    (detect_kick_onset kickExState kickExMag 1).1.detected = true ∧
    (detect_kick_onset kickExState kickExMag 1).1.velocity =
      reportVelocity (detect_kick_onset kickExState kickExMag 1).1.strength ∧
    reportVelocity (1/2) = ⌊(1/2 : ℚ) * 127⌋ :=
  ⟨kickExample_detected,
   claim_C5_velocity_truncation.1 kickExState kickExMag 1 kickExample_detected,
   (claim_C5_velocity_truncation.2.2 (1/2) (by norm_num) (by norm_num)).1⟩

end AudioAnalyzer
